import Mathlib

/-!
# PGN decoding and game bookkeeping of the chess package

A shallow embedding of `game.go` and `pgn.go`.

* Go strings are lists of characters.
* The regular expressions of `pgn.go` are matched by a small backtracking
  matcher in continuation-passing style that returns the first success of the
  search, which is the leftmost-first answer of Go's `regexp` package.
* The board layer (`Move.isValid`, `Move.postMoveState`, `GameState.getOutcome`,
  the notations, `NewGame`, the `Game.Move` that `pgn.go` calls) is not part of
  the source slice; every function that calls it takes it as a parameter.
-/

namespace Chess

/-! ## Strings -/

/-- Go `unicode.IsSpace`, the characters removed by `strings.TrimSpace`. -/
def isSpace (c : Char) : Bool :=
  c = '\t' || c = '\n' || c = '\x0b' || c = '\x0c' || c = '\r' || c = ' ' ||
  c = '\u0085' || c = '\u00a0' || c = '\u1680' ||
  (0x2000 ≤ c.toNat && c.toNat ≤ 0x200a) ||
  c = '\u2028' || c = '\u2029' || c = '\u202f' || c = '\u205f' || c = '\u3000'

/-- Go `strings.TrimSpace`: leading and trailing white space removed. -/
def TrimSpace (s : List Char) : List Char :=
  ((s.dropWhile isSpace).reverse.dropWhile isSpace).reverse

/-- Go `strings.Split(s, sep)` for a separator of one character. -/
def Split (sep : Char) : List Char → List (List Char)
  | [] => [[]]
  | c :: cs =>
    if c = sep then [] :: Split sep cs
    else
      match Split sep cs with
      | [] => [[c]]
      | h :: t => (c :: h) :: t

/-- Go `strings.Replace(s, old, new, -1)` for strings of one character. -/
def Replace (old new : Char) (s : List Char) : List Char :=
  s.map (fun c => if c = old then new else c)

/-- Go `fmt.Sprintf("%d", n)` for a non-negative integer. -/
def formatNat (n : Nat) : List Char := Nat.toDigits 10 n

/-- Go `fmt.Sprintf("%d", n)` for an `int`. -/
def formatInt (n : Int) : List Char :=
  if n < 0 then '-' :: Nat.toDigits 10 n.natAbs else Nat.toDigits 10 n.toNat

/-- The substring `s[i:j]`. -/
def slice (s : List Char) (i j : Nat) : List Char := (s.take j).drop i

/-! ## Regular expressions

Each matcher takes the continuation that matches the rest of the pattern and
returns the first success in the order a backtracking search tries the
alternatives: a greedy repetition tries the longer match first, a lazy one the
shorter. -/

/-- The class `.`: every character except the line feed. -/
def reDot (c : Char) : Bool := c != '\n'

/-- The class `\s` of Go's regexp syntax: `[\t\n\f\r ]`. -/
def reSpace (c : Char) : Bool :=
  c = '\t' || c = '\n' || c = '\x0c' || c = '\r' || c = ' '

/-- The class `\d`: `[0-9]`. -/
def reDigit (c : Char) : Bool := '0' ≤ c && c ≤ '9'

/-- One character of class `p`, then `k`. -/
def reChar {α : Type} (p : Char → Bool) (k : List Char → Option α) : List Char → Option α
  | [] => none
  | c :: cs => if p c then k cs else none

/-- Greedy `p*`, then `k`; returns the characters the repetition consumed. -/
def reStarGreedy {α : Type} (p : Char → Bool) (k : List Char → Option α) :
    List Char → Option (List Char × α)
  | [] => (k []).map (fun a => ([], a))
  | c :: cs =>
    if p c then
      match reStarGreedy p k cs with
      | some (g, a) => some (c :: g, a)
      | none => (k (c :: cs)).map (fun a => ([], a))
    else (k (c :: cs)).map (fun a => ([], a))

/-- Greedy `p+`, then `k`; returns the characters the repetition consumed. -/
def rePlusGreedy {α : Type} (p : Char → Bool) (k : List Char → Option α) :
    List Char → Option (List Char × α)
  | [] => none
  | c :: cs =>
    if p c then (reStarGreedy p k cs).map (fun r => (c :: r.1, r.2)) else none

/-- Lazy `p*?`, then `k`; returns the characters the repetition consumed. -/
def reStarLazy {α : Type} (p : Char → Bool) (k : List Char → Option α) :
    List Char → Option (List Char × α)
  | [] => (k []).map (fun a => ([], a))
  | c :: cs =>
    match k (c :: cs) with
    | some a => some ([], a)
    | none =>
      if p c then (reStarLazy p k cs).map (fun r => (c :: r.1, r.2)) else none

/-- The leftmost match: the matcher is tried at offset 0, 1, ... up to the end
of the input; returns the offset and the matcher's answer. -/
def reFind {α : Type} (m : List Char → Option α) : List Char → Option (Nat × α)
  | [] => (m []).map (fun a => (0, a))
  | c :: cs =>
    match m (c :: cs) with
    | some a => some (0, a)
    | none => (reFind m cs).map (fun r => (r.1 + 1, r.2))

/-! ## game.go -/

/-- Go `type Outcome string`. -/
abbrev Outcome := List Char

def NoOutcome : Outcome := ['*']
def WhiteWon : Outcome := ['1', '-', '0']
def BlackWon : Outcome := ['0', '-', '1']
def Draw : Outcome := ['1', '/', '2', '-', '1', '/', '2']

/-- Go `type Method int` with its five constants. -/
inductive Method
  | NoMethod
  | Checkmate
  | Resignation
  | DrawOffer
  | Stalemate
  deriving DecidableEq, Repr

/-- The `Move` struct that `Game.Move` of `game.go` builds. -/
structure Move (Square PieceType GameState : Type) where
  s1 : Square
  s2 : Square
  promo : PieceType
  state : GameState

/-- The `Game` struct of `game.go`. `TagMap` stands for `map[string]string`. -/
structure Game (TagMap Square PieceType GameState : Type) where
  tagPairs : TagMap
  moves : List (Move Square PieceType GameState)
  state : GameState
  outcome : Outcome
  method : Method

/-- The methods of `Move` and `GameState` that `game.go` calls; their code is
not in the source slice. -/
structure Rules (Square PieceType GameState : Type) where
  isValid : Move Square PieceType GameState → Bool
  postMoveState : Move Square PieceType GameState → GameState
  getOutcome : GameState → Outcome × Method
  moveString : Move Square PieceType GameState → List Char

section GameGo
variable {TagMap Square PieceType GameState : Type}

/-- Method `Game.updateState` of `game.go`. -/
def Game.updateState (R : Rules Square PieceType GameState)
    (g : Game TagMap Square PieceType GameState) (state : GameState) :
    Game TagMap Square PieceType GameState :=
  let g := { g with state := state }
  let om := R.getOutcome state
  let g := { g with outcome := om.1 }
  { g with method := om.2 }

/-- Method `Game.Move` of `game.go`: the returned error (`none` for `nil`) and
the game after the call. -/
def Game.Move (R : Rules Square PieceType GameState)
    (g : Game TagMap Square PieceType GameState) (s1 s2 : Square) (promo : PieceType) :
    Option (List Char) × Game TagMap Square PieceType GameState :=
  if g.outcome ≠ NoOutcome then
    (some "chess: invalid move game complete".toList, g)
  else
    let move : Chess.Move Square PieceType GameState :=
      { s1 := s1, s2 := s2, promo := promo, state := g.state }
    if !R.isValid move then
      (some ("chess: invalid move ".toList ++ R.moveString move), g)
    else
      let g := { g with moves := g.moves ++ [move] }
      (none, Game.updateState R g (R.postMoveState move))

/-- Function `TagPairs` of `game.go`: the option that sets the tag pairs. -/
def TagPairs (tagPairs : TagMap) :
    Game TagMap Square PieceType GameState → Game TagMap Square PieceType GameState :=
  fun g => { g with tagPairs := tagPairs }

/-- Function `NewGame` of `game.go`: the options are applied in order to a game
without moves. `noTags` stands for the `nil` map and `startState` for the state
`decodeFEN(startFEN)` returns. -/
def NewGame (noTags : TagMap) (startState : GameState)
    (options : List (Game TagMap Square PieceType GameState →
      Game TagMap Square PieceType GameState)) :
    Game TagMap Square PieceType GameState :=
  options.foldl (fun game f => f game)
    { tagPairs := noTags, moves := [], state := startState, outcome := NoOutcome,
      method := Method.NoMethod }

end GameGo

/-! ## pgn.go: section removal and the move list -/

/-- The pattern `leftChar + ".*?" + rightChar` of `removeSection`, matched at
the head of the input: the text between the delimiters and the input after the
match. The delimiters `l` and `r` are the characters the two pattern strings
stand for. -/
def sectionAt (l r : Char) : List Char → Option (List Char × List Char) :=
  reChar (fun c => c = l) (reStarLazy reDot (reChar (fun c => c = r) some))

/-- Go `r.FindStringIndex(s)` for the pattern of `removeSection`: start and end
offset of the leftmost match. -/
def sectionFindStringIndex (l r : Char) (s : List Char) : Option (Nat × Nat) :=
  (reFind (sectionAt l r) s).map (fun m => (m.1, s.length - m.2.2.length))

/-- The loop of `removeSection`. Every round deletes a match, which has at
least two characters, so `s.length` rounds are never used up
(`removeSection_unfold`). -/
def removeSectionLoop (l r : Char) : Nat → List Char → List Char
  | 0, s => s
  | fuel + 1, s =>
    match sectionFindStringIndex l r s with
    | none => s
    | some i => removeSectionLoop l r fuel (s.take i.1 ++ s.drop i.2)

/-- Function `removeSection` of `pgn.go`. -/
def removeSection (l r : Char) (s : List Char) : List Char :=
  removeSectionLoop l r s.length s

/-- The pattern `(?:\d+\.+)?(.*)` matched at the head of the input: the text
of group 1 and the input after the match. The optional group is greedy: it is
tried first, and skipped only when the match fails with it. -/
def moveNumAt (s : List Char) : Option (List Char × List Char) :=
  match rePlusGreedy reDigit
      (rePlusGreedy (fun c => c = '.') (reStarGreedy reDot some)) s with
  | some r => some r.2.2
  | none => reStarGreedy reDot some s

/-- Go `moveNumRegex.FindStringSubmatch(s)`: the whole match and group 1, or
the empty list (`nil`) when nothing matches. -/
def moveNumRegex.FindStringSubmatch (s : List Char) : List (List Char) :=
  match reFind moveNumAt s with
  | none => []
  | some m => [slice s m.1 (s.length - m.2.2.length), m.2.1]

/-- One round of the loop of `moveList` over the pieces of the text. -/
def moveListStep (acc : List (List Char) × Outcome) (move : List Char) :
    List (List Char) × Outcome :=
  let move := TrimSpace move
  if move = NoOutcome ∨ move = WhiteWon ∨ move = BlackWon ∨ move = Draw then
    (acc.1, move)
  else if move = [] then acc
  else
    let results := moveNumRegex.FindStringSubmatch move
    if results.length = 2 ∧ results.getD 1 [] ≠ [] then
      (acc.1 ++ [results.getD 1 []], acc.2)
    else acc

/-- The text `moveList` splits: comments, variations and bracket blocks
removed, line breaks replaced by spaces. -/
def moveListText (pgn : List Char) : List Char :=
  let text := removeSection '{' '}' pgn
  let text := removeSection '(' ')' text
  let text := removeSection '[' ']' text
  Replace '\n' ' ' text

/-- Function `moveList` of `pgn.go`. The result variable starts as the zero
value of `Outcome`, the empty string. -/
def moveList (pgn : List Char) : List (List Char) × Outcome :=
  (Split ' ' (moveListText pgn)).foldl moveListStep ([], [])

/-! ## pgn.go: tag pairs -/

/-- The `TagPair` struct that `pgn.go` builds. -/
structure TagPair where
  Key : List Char
  Value : List Char
  deriving DecidableEq, Repr

/-- The pattern `\[(.*)\s\"(.*)\"\]` of `tagPairRegex`, matched at the head of
the input: the texts of group 1 and group 2 and the input after the match. -/
def tagPairAt : List Char → Option (List Char × List Char × List Char) :=
  reChar (fun c => c = '[')
    (reStarGreedy reDot
      (reChar reSpace
        (reChar (fun c => c = '"')
          (reStarGreedy reDot
            (reChar (fun c => c = '"') (reChar (fun c => c = ']') some))))))

/-- The loop of `FindAllString`: the leftmost match, then the search goes on
behind it. A match is not empty, so `s.length` rounds are never used up. -/
def tagPairRegex.FindAllLoop : Nat → List Char → List (List Char)
  | 0, _ => []
  | fuel + 1, s =>
    match reFind tagPairAt s with
    | none => []
    | some m =>
      slice s m.1 (s.length - m.2.2.2.length) :: tagPairRegex.FindAllLoop fuel m.2.2.2

/-- Go `tagPairRegex.FindAllString(s, -1)`: the successive matches, none
overlapping another. -/
def tagPairRegex.FindAllString (s : List Char) : List (List Char) :=
  tagPairRegex.FindAllLoop s.length s

/-- Go `tagPairRegex.FindStringSubmatch(s)`: the whole match and the two
groups, or the empty list (`nil`) when nothing matches. -/
def tagPairRegex.FindStringSubmatch (s : List Char) : List (List Char) :=
  match reFind tagPairAt s with
  | none => []
  | some m => [slice s m.1 (s.length - m.2.2.2.length), m.2.1, m.2.2.1]

/-- Function `getTagPairs` of `pgn.go`. -/
def getTagPairs (pgn : List Char) : List TagPair :=
  (tagPairRegex.FindAllString pgn).foldl
    (fun tagPairs m =>
      let results := tagPairRegex.FindStringSubmatch m
      if results.length = 3 then
        tagPairs ++ [{ Key := results.getD 1 [], Value := results.getD 2 [] }]
      else tagPairs)
    []

/-! ## pgn.go: games -/

/-- The `Notation` interface: `Encode` and `Decode`, the latter returning the
move or the text of the error. -/
structure Notation (Pos Mv : Type) where
  Encode : Pos → Mv → List Char
  Decode : Pos → List Char → Except (List Char) Mv

/-- The fields of `Game` that `pgn.go` reads and writes. (`pgn.go` is written
against a revision of `Game` with a position history and a notation, which
`game.go` of the slice does not have.) -/
structure PgnGame (Pos Mv : Type) where
  tagPairs : List TagPair
  moves : List Mv
  positions : List Pos
  notn : Notation Pos Mv
  outcome : Outcome
  ignoreAutomaticDraws : Bool

/-- What `pgn.go` calls and the slice does not contain: `NewGame` with the
`TagPairs` option, `Game.Position`, the field `moveCount` of a position, the
two notations, and `Game.Move`, which returns its error (`none` for `nil`) and
the game after the call. -/
structure Board (Pos Mv : Type) where
  NewGame : List TagPair → PgnGame Pos Mv
  Position : PgnGame Pos Mv → Pos
  moveCount : Pos → Int
  AlgebraicNotation : Notation Pos Mv
  LongAlgebraicNotation : Notation Pos Mv
  Move : PgnGame Pos Mv → Mv → Option (List Char) × PgnGame Pos Mv

section PgnGo
variable {Pos Mv : Type}

/-- The loop of `decodePGN` over the move strings. -/
def decodePGN.loop (B : Board Pos Mv) (notn : Notation Pos Mv) :
    List (List Char) → PgnGame Pos Mv → Except (List Char) (PgnGame Pos Mv)
  | [], g => .ok g
  | alg :: rest, g =>
    match notn.Decode (B.Position g) alg with
    | .error err =>
      .error ("chess: pgn decode error ".toList ++ err ++ " on move ".toList ++
        formatInt (B.moveCount (B.Position g)))
    | .ok m =>
      match B.Move g m with
      | (some err, g) =>
        .error ("chess: pgn invalid move error ".toList ++ err ++ " on move ".toList ++
          formatInt (B.moveCount (B.Position g)))
      | (none, g) => decodePGN.loop B notn rest g

/-- Function `decodePGN` of `pgn.go`: the game, or the text of the error. -/
def decodePGN (B : Board Pos Mv) (pgn : List Char) :
    Except (List Char) (PgnGame Pos Mv) :=
  let tagPairs := getTagPairs pgn
  let ml := moveList pgn
  let moveStrs := ml.1
  let outcome := ml.2
  let g := B.NewGame tagPairs
  let g := { g with ignoreAutomaticDraws := true }
  let notn : Notation Pos Mv :=
    match moveStrs with
    | [] => B.AlgebraicNotation
    | first :: _ =>
      match B.LongAlgebraicNotation.Decode (B.Position g) first with
      | .ok _ => B.LongAlgebraicNotation
      | .error _ => B.AlgebraicNotation
  match decodePGN.loop B notn moveStrs g with
  | .error err => .error err
  | .ok g => .ok { g with outcome := outcome }

/-- The loop of `encodePGN` over the moves, from index `i` on; `none` when
`g.positions[i]` is out of range (a run-time panic). -/
def encodePGN.moves (g : PgnGame Pos Mv) : Nat → List Mv → List Char → Option (List Char)
  | _, [], s => some s
  | i, move :: rest, s =>
    match g.positions.get? i with
    | none => none
    | some pos =>
      let txt := g.notn.Encode pos move
      if i % 2 = 0 then
        encodePGN.moves g (i + 1) rest (s ++ (formatNat (i / 2 + 1) ++ '.' :: txt))
      else
        encodePGN.moves g (i + 1) rest (s ++ (' ' :: txt ++ [' ']))

/-- Function `encodePGN` of `pgn.go`; `none` for a run-time panic. -/
def encodePGN (g : PgnGame Pos Mv) : Option (List Char) :=
  let s := g.tagPairs.foldl
    (fun s tag => s ++ ('[' :: tag.Key ++ ' ' :: '"' :: tag.Value ++ ['"', ']', '\n'])) []
  let s := s ++ ['\n']
  match encodePGN.moves g 0 g.moves s with
  | none => none
  | some s => some (s ++ ' ' :: g.outcome)

/-! ## pgn.go: streams of games

The reader is the text it has not yet delivered; the underlying stream never
fails, so the only error of `ReadString` is `io.EOF`. Logging is left out. -/

/-- Go `bufio.Reader.ReadString(delim)`: the text up to and including the
first delimiter, the text left in the reader, and whether the error is
`io.EOF` (no delimiter before the end of the text). -/
def ReadString (delim : Char) : List Char → List Char × List Char × Bool
  | [] => ([], [], true)
  | c :: cs =>
    if c = delim then ([c], cs, false)
    else
      let r := ReadString delim cs
      (c :: r.1, r.2.1, r.2.2)

/-- The loop of `GamesFromPGN`: the returned games and error. `none` only when
the fuel is used up, which `br.length + 1` rounds never are. -/
def GamesFromPGN.loop (B : Board Pos Mv) :
    Nat → List Char → List (PgnGame Pos Mv) → List Char → Nat →
    Option (List (PgnGame Pos Mv) × Option (List Char))
  | 0, _, _, _, _ => none
  | fuel + 1, br, games, current, count =>
    let r := ReadString '\n' br
    let line := r.1
    if r.2.2 then some (games, none)
    else
      let count := if TrimSpace line = [] then count + 1 else count
      let current := if TrimSpace line = [] then current else current ++ line
      if count = 2 then
        match decodePGN B current with
        | .error err => some ([], some err)
        | .ok game => GamesFromPGN.loop B fuel r.2.1 (games ++ [game]) [] 0
      else GamesFromPGN.loop B fuel r.2.1 games current count

/-- Function `GamesFromPGN` of `pgn.go` on a reader holding the text `r`. -/
def GamesFromPGN (B : Board Pos Mv) (r : List Char) :
    Option (List (PgnGame Pos Mv) × Option (List Char)) :=
  GamesFromPGN.loop B (r.length + 1) r [] [] 0

/-- The loop of `LimitedGamesFromPGN`: the returned games, reader (`none` for
`nil`), count and error. -/
def LimitedGamesFromPGN.loop (B : Board Pos Mv) (nrOfGames : Int) :
    Nat → List Char → List (PgnGame Pos Mv) → List Char → Nat → Nat →
    Option (List (PgnGame Pos Mv) × Option (List Char) × Nat × Option (List Char))
  | 0, _, _, _, _, _ => none
  | fuel + 1, br, games, current, count, totalCount =>
    let r := ReadString '\n' br
    let line := r.1
    if r.2.2 then some (games, none, totalCount, none)
    else
      let count := if TrimSpace line = [] then count + 1 else count
      let current := if TrimSpace line = [] then current else current ++ line
      if count = 2 then
        match decodePGN B current with
        | .error err => some ([], none, 0, some err)
        | .ok game =>
          let games := games ++ [game]
          let totalCount := totalCount + 1
          if (totalCount : Int) < nrOfGames then
            LimitedGamesFromPGN.loop B nrOfGames fuel r.2.1 games [] 0 totalCount
          else some (games, some r.2.1, totalCount, none)
      else LimitedGamesFromPGN.loop B nrOfGames fuel r.2.1 games current count totalCount

/-- Function `LimitedGamesFromPGN` of `pgn.go`. -/
def LimitedGamesFromPGN (B : Board Pos Mv) (br : List Char) (nrOfGames : Int)
    (_verbose : Bool) :
    Option (List (PgnGame Pos Mv) × Option (List Char) × Nat × Option (List Char)) :=
  LimitedGamesFromPGN.loop B nrOfGames (br.length + 1) br [] [] 0 0

/-- Function `LimitedGamesFromPGNReader` of `pgn.go`. -/
def LimitedGamesFromPGNReader (B : Board Pos Mv) (br : List Char) (nrOfGames : Int) :
    Option (List (PgnGame Pos Mv) × Option (List Char) × Nat × Option (List Char)) :=
  LimitedGamesFromPGN B br nrOfGames false

end PgnGo

/-! ## Notions the statements use -/

/-- One of the four `Outcome` literals. -/
def IsResult (t : List Char) : Prop :=
  t = NoOutcome ∨ t = WhiteWon ∨ t = BlackWon ∨ t = Draw

instance (t : List Char) : Decidable (IsResult t) := by
  unfold IsResult; infer_instance

/-- The result tokens of a movetext, in order: the pieces of the text that
`moveList` splits which, trimmed, are one of the four `Outcome` literals. -/
def resultTokens (pgn : List Char) : List (List Char) :=
  ((Split ' ' (moveListText pgn)).map TrimSpace).filter (fun t => decide (IsResult t))

/-- Lines written one after the other, each followed by a line feed. -/
def unlines : List (List Char) → List Char
  | [] => []
  | l :: ls => l ++ '\n' :: unlines ls

/-- One record of a PGN stream, every line without its line feed: the tag
lines, a blank line, the movetext lines, a blank line. -/
structure PgnRecord where
  tagLines : List (List Char)
  blank₁ : List Char
  moveLines : List (List Char)
  blank₂ : List Char

/-- The text of a record in the stream. -/
def PgnRecord.text (r : PgnRecord) : List Char :=
  unlines r.tagLines ++ (r.blank₁ ++ '\n' :: (unlines r.moveLines ++ (r.blank₂ ++ ['\n'])))

/-- The concatenation of the non-blank lines of a record, line feeds kept. -/
def PgnRecord.nonBlank (r : PgnRecord) : List Char :=
  unlines r.tagLines ++ unlines r.moveLines

/-- The text of a stream of records. -/
def streamText : List PgnRecord → List Char
  | [] => []
  | r :: rs => r.text ++ streamText rs

/-- A record as the stream decoders expect it: no line holds a line feed, the
tag lines and movetext lines are not blank (`strings.TrimSpace` leaves
something of the line), the two separator lines are blank. -/
structure PgnRecord.WellFormed (r : PgnRecord) : Prop where
  tag_lf : ∀ l ∈ r.tagLines, '\n' ∉ l
  move_lf : ∀ l ∈ r.moveLines, '\n' ∉ l
  blank₁_lf : '\n' ∉ r.blank₁
  blank₂_lf : '\n' ∉ r.blank₂
  tag_nonblank : ∀ l ∈ r.tagLines, TrimSpace (l ++ ['\n']) ≠ []
  move_nonblank : ∀ l ∈ r.moveLines, TrimSpace (l ++ ['\n']) ≠ []
  blank₁_blank : TrimSpace (r.blank₁ ++ ['\n']) = []
  blank₂_blank : TrimSpace (r.blank₂ ++ ['\n']) = []

/-- The line `encodePGN` writes for a tag pair, without its line feed. -/
def tagLine (t : TagPair) : List Char :=
  '[' :: (t.Key ++ ' ' :: '"' :: (t.Value ++ ['"', ']']))

/-- The tag-pair section `encodePGN` writes: one line for each tag pair. -/
def tagsText : List TagPair → List Char
  | [] => []
  | t :: ts => tagLine t ++ '\n' :: tagsText ts

/-- What may follow a tag line for the line to be matched alone: the end of
the text, or a line feed that is not followed by a double quote. -/
def LineEnd (tail : List Char) : Prop :=
  tail = [] ∨ ∃ t, tail = '\n' :: t ∧ t.head? ≠ some '"'

/-- The rest of `tagPairRegex` behind group 2: `\"\]`. -/
def tagClose : List Char → Option (List Char) :=
  reChar (fun c => c = '"') (reChar (fun c => c = ']') some)

/-- The rest of `tagPairRegex` behind group 1: `\s\"(.*)\"\]`. -/
def tagValue : List Char → Option (List Char × List Char) :=
  reChar reSpace (reChar (fun c => c = '"') (reStarGreedy reDot tagClose))

/-- A text without brace, parenthesis or square bracket. -/
def NoDelimiter (s : List Char) : Prop :=
  ∀ c ∈ s, c ≠ '{' ∧ c ≠ '}' ∧ c ≠ '(' ∧ c ≠ ')' ∧ c ≠ '[' ∧ c ≠ ']'

instance (s : List Char) : Decidable (NoDelimiter s) := by
  unfold NoDelimiter; infer_instance

section PgnNotions
variable {Pos Mv : Type}

/-- The loop of `TestLimitedGamesFromPGNReader`: `LimitedGamesFromPGNReader` is
called on the reader, then on each reader it returns, until it returns `nil`;
the results of the calls in order. `none` only when the fuel is used up. -/
def LimitedReadAll (B : Board Pos Mv) (nrOfGames : Int) :
    Nat → List Char →
    Option (List (List (PgnGame Pos Mv) × Option (List Char) × Nat × Option (List Char)))
  | 0, _ => none
  | fuel + 1, br =>
    match LimitedGamesFromPGNReader B br nrOfGames with
    | none => none
    | some res =>
      match res.2.1 with
      | none => some [res]
      | some br' => (LimitedReadAll B nrOfGames fuel br').map (fun rest => res :: rest)

/-- What one call of `LimitedGamesFromPGN` does, next to `GamesFromPGN` on the
same reader and loop variables: it fails with the same error; or it reaches
the end of the text with the same new games; or it stops at the bound with
new games `X` and hands back a shorter reader, from which `GamesFromPGN`
goes on with fresh loop variables. -/
def LimitedSpec (B : Board Pos Mv) (fuel : Nat) (br : List Char)
    (lg acc : List (PgnGame Pos Mv)) (current : List Char) (count totalCount : Nat)
    (res : Option (List (PgnGame Pos Mv) × Option (List Char) × Nat × Option (List Char))) :
    Prop :=
  (∃ e, res = some ([], none, 0, some e) ∧
    GamesFromPGN.loop B fuel br acc current count = some ([], some e)) ∨
  (∃ X, res = some (lg ++ X, none, totalCount + X.length, none) ∧
    GamesFromPGN.loop B fuel br acc current count = some (acc ++ X, none)) ∨
  (∃ X br', res = some (lg ++ X, some br', totalCount + X.length, none) ∧
    br'.length < br.length ∧
    GamesFromPGN.loop B fuel br acc current count =
      GamesFromPGN.loop B (br'.length + 1) br' (acc ++ X) [] 0)

/-- The game `decodePGN` replays the moves on: `NewGame` with the tag pairs of
the text, automatic draws ignored. -/
def decodePGN.start (B : Board Pos Mv) (pgn : List Char) : PgnGame Pos Mv :=
  { B.NewGame (getTagPairs pgn) with ignoreAutomaticDraws := true }

/-- One round of the loop of `decodePGN`: the game after the move string, or
the text of the error. -/
def decodePGN.step (B : Board Pos Mv) (notn : Notation Pos Mv) (g : PgnGame Pos Mv)
    (alg : List Char) : Except (List Char) (PgnGame Pos Mv) :=
  match notn.Decode (B.Position g) alg with
  | .error err =>
    .error ("chess: pgn decode error ".toList ++ err ++ " on move ".toList ++
      formatInt (B.moveCount (B.Position g)))
  | .ok m =>
    match B.Move g m with
    | (some err, g) =>
      .error ("chess: pgn invalid move error ".toList ++ err ++ " on move ".toList ++
        formatInt (B.moveCount (B.Position g)))
    | (none, g) => .ok g

/-- What `decodePGN` returns for the result of its loop: the error, or the game
with the outcome of the move list. -/
def decodePGN.finish (outcome : Outcome) :
    Except (List Char) (PgnGame Pos Mv) → Except (List Char) (PgnGame Pos Mv)
  | .error err => .error err
  | .ok g => .ok { g with outcome := outcome }

/-- The notation `decodePGN` replays the moves with: the long algebraic one
when the first move string decodes with it on the starting game, the algebraic
one otherwise and for an empty list. -/
def decodePGN.pick (B : Board Pos Mv) (pgn : List Char) : Notation Pos Mv :=
  match (moveList pgn).1 with
  | [] => B.AlgebraicNotation
  | first :: _ =>
    match B.LongAlgebraicNotation.Decode (B.Position (decodePGN.start B pgn)) first with
    | .ok _ => B.LongAlgebraicNotation
    | .error _ => B.AlgebraicNotation

end PgnNotions

/-- A token without white space, braces, parentheses or brackets: a text that
is not empty and holds none of these characters. -/
def IsToken (t : List Char) : Prop :=
  t ≠ [] ∧ (∀ c ∈ t, isSpace c = false) ∧ NoDelimiter t

instance (t : List Char) : Decidable (IsToken t) := by
  unfold IsToken; infer_instance

/-- The text begins with digits followed by a dot. -/
def BeginsWithMoveNumber (t : List Char) : Prop :=
  ∃ d rest, d ≠ [] ∧ (∀ c ∈ d, reDigit c = true) ∧ t = d ++ '.' :: rest

/-- The number of blank lines among lines given without their line feed. -/
def blankCount (ls : List (List Char)) : Nat :=
  (ls.filter (fun l => decide (TrimSpace (l ++ ['\n']) = []))).length

/-! ## Sample data

A small rule set, a board and a few games, used to run the definitions on
concrete inputs. -/

/-- Sample rules over squares `0, 1, 2, ...`: a move is valid when it goes to a
higher square; the state counts the moves; the third move mates. -/
def demoRules : Rules Nat Nat Nat where
  isValid := fun m => decide (m.s1 < m.s2)
  postMoveState := fun m => m.state + 1
  getOutcome := fun st =>
    if 3 ≤ st then (WhiteWon, Method.Checkmate) else (NoOutcome, Method.NoMethod)
  moveString := fun _ => ['m']

/-- A sample game in progress. -/
def demoGame : Game Unit Nat Nat Nat :=
  { tagPairs := (), moves := [], state := 0, outcome := NoOutcome, method := Method.NoMethod }

/-- A sample game that is over. -/
def demoGameOver : Game Unit Nat Nat Nat :=
  { tagPairs := (), moves := [], state := 3, outcome := WhiteWon, method := Method.Checkmate }

/-- A sample notation on positions `Nat` and moves that are their own text:
`Decode` refuses the texts that start with `x`. -/
def demoAlgebraic : Notation Nat (List Char) where
  Encode := fun _ m => m
  Decode := fun _ s => if s.head? = some 'x' then .error "bad".toList else .ok s

/-- A sample long notation: `Decode` accepts the texts of four characters. -/
def demoLong : Notation Nat (List Char) where
  Encode := fun _ m => m
  Decode := fun _ s => if s.length = 4 then .ok s else .error "bad".toList

/-- A sample board: a position is the number of moves played, `Game.Move`
refuses the move `zz` and appends every other move. -/
def demoBoard : Board Nat (List Char) where
  NewGame := fun tagPairs =>
    { tagPairs := tagPairs, moves := [], positions := [0], notn := demoAlgebraic,
      outcome := NoOutcome, ignoreAutomaticDraws := false }
  Position := fun g => g.moves.length
  moveCount := fun p => (p / 2 + 1 : Nat)
  AlgebraicNotation := demoAlgebraic
  LongAlgebraicNotation := demoLong
  Move := fun g m =>
    if m = ['z', 'z'] then (some "illegal".toList, g)
    else
      (none, { g with moves := g.moves ++ [m],
                      positions := g.positions ++ [g.moves.length + 1] })

/-- A sample game of two moves whose one tag value holds a closing bracket. -/
def demoBracketTagGame : PgnGame Nat (List Char) :=
  { tagPairs := [{ Key := "Event".toList, Value := "a]b".toList }],
    moves := ["e4".toList, "e5".toList], positions := [0, 1, 2], notn := demoAlgebraic,
    outcome := NoOutcome, ignoreAutomaticDraws := false }

/-- Two sample records. -/
def demoRecords : List PgnRecord :=
  [ { tagLines := ["[A \"b\"]".toList], blank₁ := [],
      moveLines := ["1. e4 e5".toList, "2. d4 *".toList], blank₂ := [' '] },
    { tagLines := ["[A \"c\"]".toList], blank₁ := [],
      moveLines := ["1. c4 1-0".toList], blank₂ := [] } ]

/-- The games the two sample records decode to on the sample board. -/
def demoGames : List (PgnGame Nat (List Char)) :=
  [ { tagPairs := [{ Key := ['A'], Value := ['b'] }],
      moves := ["e4".toList, "e5".toList, "d4".toList], positions := [0, 1, 2, 3],
      notn := demoAlgebraic, outcome := NoOutcome, ignoreAutomaticDraws := true },
    { tagPairs := [{ Key := ['A'], Value := ['c'] }],
      moves := ["c4".toList], positions := [0, 1],
      notn := demoAlgebraic, outcome := WhiteWon, ignoreAutomaticDraws := true } ]

/-- A sample game with two tag pairs of the same key and three moves. -/
def demoTagGame : PgnGame Nat (List Char) :=
  { tagPairs := [{ Key := "Event".toList, Value := "a [b] c ".toList },
                 { Key := "Event".toList, Value := [] }],
    moves := ["e4".toList, "e5".toList, "Nf3".toList],
    positions := [0, 1, 2, 3], notn := demoAlgebraic, outcome := NoOutcome,
    ignoreAutomaticDraws := false }

/-- A sample record whose movetext holds the move `zz`, which the sample board
refuses. -/
def demoBadRecord : PgnRecord :=
  { tagLines := ["[A \"d\"]".toList], blank₁ := [], moveLines := ["1. d4 zz".toList],
    blank₂ := [] }

/-! ## Theorems: game.go -/

section GameGoTheorems
variable {TagMap Square PieceType GameState : Type}

/-- C1. Terminal rejection: on a game whose outcome is not `NoOutcome`,
`Game.Move` returns the error "chess: invalid move game complete" for every
origin, destination and promotion, valid or not, and the game after the call
is the game before it, field by field. -/
theorem Game.Move_terminal_rejected (R : Rules Square PieceType GameState)
    (g : Game TagMap Square PieceType GameState) (s1 s2 : Square) (promo : PieceType)
    (h : g.outcome ≠ NoOutcome) :
    (Game.Move R g s1 s2 promo).1 = some "chess: invalid move game complete".toList ∧
    (Game.Move R g s1 s2 promo).2.tagPairs = g.tagPairs ∧
    (Game.Move R g s1 s2 promo).2.moves = g.moves ∧
    (Game.Move R g s1 s2 promo).2.state = g.state ∧
    (Game.Move R g s1 s2 promo).2.outcome = g.outcome ∧
    (Game.Move R g s1 s2 promo).2.method = g.method := by
  simp [Game.Move, h]

/-- The sample game that is over refuses the move from square 0 to square 1,
which the sample rules hold valid, and stays as it is. -/
theorem Game.Move_terminal_rejected_witness :
    demoGameOver.outcome ≠ NoOutcome ∧
    (Game.Move demoRules demoGameOver 0 1 0).1 = some "chess: invalid move game complete".toList ∧
    (Game.Move demoRules demoGameOver 0 1 0).2 = demoGameOver :=
  have h : demoGameOver.outcome ≠ NoOutcome := by decide
  ⟨h, (Game.Move_terminal_rejected demoRules demoGameOver 0 1 0 h).1, by simp [Game.Move, h]⟩

/-- C2. Successful move: on a game whose outcome is `NoOutcome`, a move that is
valid in the current state makes `Game.Move` return no error; the move list
becomes the old one with that move appended, the state becomes the move's
post-move state, outcome and method become what `getOutcome` returns for the
new state, and the tag pairs stay. -/
theorem Game.Move_valid (R : Rules Square PieceType GameState)
    (g : Game TagMap Square PieceType GameState) (s1 s2 : Square) (promo : PieceType)
    (hout : g.outcome = NoOutcome)
    (hvalid : R.isValid { s1 := s1, s2 := s2, promo := promo, state := g.state } = true) :
    (Game.Move R g s1 s2 promo).1 = none ∧
    (Game.Move R g s1 s2 promo).2.moves =
      g.moves ++ [{ s1 := s1, s2 := s2, promo := promo, state := g.state }] ∧
    (Game.Move R g s1 s2 promo).2.state =
      R.postMoveState { s1 := s1, s2 := s2, promo := promo, state := g.state } ∧
    ((Game.Move R g s1 s2 promo).2.outcome, (Game.Move R g s1 s2 promo).2.method) =
      R.getOutcome (R.postMoveState { s1 := s1, s2 := s2, promo := promo, state := g.state }) ∧
    (Game.Move R g s1 s2 promo).2.tagPairs = g.tagPairs := by
  simp [Game.Move, Game.updateState, hout, hvalid]

/-- The sample game in progress accepts the move from square 0 to square 1. -/
theorem Game.Move_valid_witness :
    demoGame.outcome = NoOutcome ∧
    demoRules.isValid { s1 := 0, s2 := 1, promo := 0, state := demoGame.state } = true ∧
    (Game.Move demoRules demoGame 0 1 0).1 = none ∧
    (Game.Move demoRules demoGame 0 1 0).2.moves =
      demoGame.moves ++ [{ s1 := 0, s2 := 1, promo := 0, state := demoGame.state }] :=
  have h := Game.Move_valid demoRules demoGame 0 1 0 rfl (by decide)
  ⟨rfl, by decide, h.1, h.2.1⟩

end GameGoTheorems

/-! ## Theorems: the move list -/

theorem moveListStep_snd (acc : List (List Char) × Outcome) (tok : List Char) :
    (moveListStep acc tok).2 = if IsResult (TrimSpace tok) then TrimSpace tok else acc.2 := by
  unfold moveListStep IsResult
  by_cases h : TrimSpace tok = NoOutcome ∨ TrimSpace tok = WhiteWon ∨
      TrimSpace tok = BlackWon ∨ TrimSpace tok = Draw
  · simp only [h, if_true]
  · simp only [h, if_false]
    split
    · rfl
    · split <;> rfl

/-- The outcome `moveList` returns is the last result token, or stays what it
was when there is none. -/
theorem foldl_moveListStep_snd (toks : List (List Char)) (acc : List (List Char) × Outcome) :
    (toks.foldl moveListStep acc).2 =
      (((toks.map TrimSpace).filter (fun t => decide (IsResult t))).getLast?).getD acc.2 := by
  induction toks generalizing acc with
  | nil => simp
  | cons tok toks ih =>
    rw [List.foldl_cons, ih, moveListStep_snd]
    by_cases h : IsResult (TrimSpace tok)
    · simp [h, List.getLast?_cons]
    · simp [h]

theorem moveList_snd (pgn : List Char) :
    (moveList pgn).2 = ((resultTokens pgn).getLast?).getD [] := by
  unfold moveList resultTokens
  rw [foldl_moveListStep_snd]

/-- Every move token `moveListStep` adds is group 1 of `moveNumRegex` on a
trimmed piece that is neither empty nor a result literal. -/
theorem moveListStep_fst (acc : List (List Char) × Outcome) (tok : List Char) :
    (moveListStep acc tok).1 = acc.1 ∨
    ∃ whole t, (moveListStep acc tok).1 = acc.1 ++ [t] ∧ ¬ IsResult (TrimSpace tok) ∧
      TrimSpace tok ≠ [] ∧ t ≠ [] ∧
      moveNumRegex.FindStringSubmatch (TrimSpace tok) = [whole, t] := by
  unfold moveListStep
  by_cases h : TrimSpace tok = NoOutcome ∨ TrimSpace tok = WhiteWon ∨
      TrimSpace tok = BlackWon ∨ TrimSpace tok = Draw
  · left; simp only [h, if_true]
  · simp only [h, if_false]
    by_cases h2 : TrimSpace tok = []
    · left; simp only [h2, if_true]
    · simp only [h2, if_false]
      by_cases h3 : (moveNumRegex.FindStringSubmatch (TrimSpace tok)).length = 2 ∧
          (moveNumRegex.FindStringSubmatch (TrimSpace tok)).getD 1 [] ≠ []
      · right
        simp only [h3, and_self, if_true]
        obtain ⟨hl, hne⟩ := h3
        match hm : moveNumRegex.FindStringSubmatch (TrimSpace tok), hl with
        | [whole, t], _ =>
          have hne' : t ≠ [] := by
            rw [hm] at hne
            simpa using hne
          exact ⟨whole, t, by simp [hne'], h, h2, hne', rfl⟩
      · left; simp only [h3, if_false]

theorem foldl_moveListStep_fst (toks : List (List Char)) (acc : List (List Char) × Outcome)
    (t : List Char) (ht : t ∈ (toks.foldl moveListStep acc).1) :
    t ∈ acc.1 ∨ ∃ piece ∈ toks, ∃ whole, ¬ IsResult (TrimSpace piece) ∧ TrimSpace piece ≠ [] ∧
      t ≠ [] ∧ moveNumRegex.FindStringSubmatch (TrimSpace piece) = [whole, t] := by
  induction toks generalizing acc with
  | nil => left; simpa using ht
  | cons tok toks ih =>
    rw [List.foldl_cons] at ht
    rcases ih _ ht with h | ⟨piece, hp, whole, h⟩
    · rcases moveListStep_fst acc tok with h1 | ⟨whole, t', h1, h2, h3, h4, h5⟩
      · left; rwa [h1] at h
      · rw [h1, List.mem_append, List.mem_singleton] at h
        rcases h with h | h
        · left; exact h
        · right; subst h
          exact ⟨tok, List.mem_cons_self _ _, whole, h2, h3, h4, h5⟩
    · right
      exact ⟨piece, List.mem_cons_of_mem _ hp, whole, h⟩

/-- C3 (failing input). With `a = "1. e4 "`, the comment `c = "a\nb"` and
`b = " e5"`, the comment is not removed: `moveList` returns the four tokens
`e4`, `{a`, `b}`, `e5`, while on `a ++ b` it returns `e4`, `e5`. -/
theorem moveList_multiline_comment_kept :
    moveList ("1. e4 ".toList ++ '{' :: "a\nb".toList ++ '}' :: " e5".toList) =
      (["e4".toList, ['{', 'a'], ['b', '}'], "e5".toList], []) ∧
    moveList ("1. e4 ".toList ++ " e5".toList) = (["e4".toList, "e5".toList], []) := by
  constructor <;> decide

/-- C4 (failing input). For the game with the moves `e4`, `e5`, outcome `*`
and the one tag pair `Event` = `a]b`, `encodePGN` writes the line
`[Event "a]b"]`, a blank line and `1.e4 e5  *`; `moveList` of that text returns
the three tokens `b"]`, `e4`, `e5`, not the two encoded move texts. -/
theorem moveList_encodePGN_bracket_in_tag :
    encodePGN demoBracketTagGame = some "[Event \"a]b\"]\n\n1.e4 e5  *".toList ∧
    moveList "[Event \"a]b\"]\n\n1.e4 e5  *".toList =
      ([['b', '"', ']'], "e4".toList, "e5".toList], NoOutcome) ∧
    demoBracketTagGame.moves = ["e4".toList, "e5".toList] := by
  refine ⟨by decide, by decide, rfl⟩

/-- C8 (counterexample). The piece `1.1-0` is not a result literal, so its
move number is stripped and the rest, the literal `1-0`, is returned as a move
token; the outcome stays empty. -/
theorem moveList_returns_result_literal :
    moveList "1.1-0".toList = ([WhiteWon], []) ∧ IsResult WhiteWon := by
  constructor <;> decide

/-- C8 (amended). The comparison with the four result literals is made on
the whole trimmed piece, before the move number is stripped: every move token
`moveList` returns is the non-empty group 1 of `moveNumRegex` on a trimmed
piece of the split text that is not empty and not itself a result literal. -/
theorem moveList_token_origin (pgn t : List Char) (ht : t ∈ (moveList pgn).1) :
    ∃ piece ∈ Split ' ' (moveListText pgn), ∃ whole,
      ¬ IsResult (TrimSpace piece) ∧ TrimSpace piece ≠ [] ∧ t ≠ [] ∧
      moveNumRegex.FindStringSubmatch (TrimSpace piece) = [whole, t] := by
  rcases foldl_moveListStep_fst _ _ t ht with h | h
  · simp at h
  · exact h

/-- The token `e4` of the text `1.e4 1-0` comes from the piece `1.e4`. -/
theorem moveList_token_origin_witness :
    "e4".toList ∈ (moveList "1.e4 1-0".toList).1 ∧
    ∃ piece ∈ Split ' ' (moveListText "1.e4 1-0".toList), ∃ whole,
      ¬ IsResult (TrimSpace piece) ∧ TrimSpace piece ≠ [] ∧ "e4".toList ≠ [] ∧
      moveNumRegex.FindStringSubmatch (TrimSpace piece) = [whole, "e4".toList] :=
  ⟨by decide, moveList_token_origin "1.e4 1-0".toList "e4".toList (by decide)⟩

/-! ## Theorems: decodePGN -/

section DecodeTheorems
variable {Pos Mv : Type}

/-- The outcome of a decoded game is the outcome `moveList` returns. -/
theorem decodePGN_outcome (B : Board Pos Mv) (pgn : List Char) (g : PgnGame Pos Mv)
    (h : decodePGN B pgn = .ok g) : g.outcome = (moveList pgn).2 := by
  unfold decodePGN at h
  simp only at h
  split at h
  · cases h
  · cases h
    rfl

/-- C9 (failing input). The empty PGN text decodes without error on every
board, and the outcome of the returned game is the empty string, which is
none of the four `Outcome` values. -/
theorem decodePGN_empty_outcome (B : Board Pos Mv) :
    ∃ g, decodePGN B [] = .ok g ∧ g.outcome = [] ∧ ¬ IsResult g.outcome := by
  have h1 : moveList [] = ([], []) := by decide
  refine ⟨{ B.NewGame (getTagPairs []) with ignoreAutomaticDraws := true, outcome := [] }, ?_, rfl, ?_⟩
  · simp [decodePGN, h1, decodePGN.loop]
  · simp only; decide

/-- A text without result token that decodes yields a game whose outcome is the
empty string. -/
theorem decodePGN_outcome_no_result (B : Board Pos Mv) (pgn : List Char)
    (g : PgnGame Pos Mv) (h : decodePGN B pgn = .ok g) (hr : resultTokens pgn = []) :
    g.outcome = [] := by
  rw [decodePGN_outcome B pgn g h, moveList_snd, hr]
  rfl

/-- C10. Recorded result overrides automatic detection: when a PGN text
decodes without error and its movetext has a result token, the outcome of the
returned game is the last result token, whatever `Game.Move` had set. -/
theorem decodePGN_outcome_last_result (B : Board Pos Mv) (pgn : List Char)
    (g : PgnGame Pos Mv) (r : List Char) (h : decodePGN B pgn = .ok g)
    (hr : (resultTokens pgn).getLast? = some r) : g.outcome = r := by
  rw [decodePGN_outcome B pgn g h, moveList_snd, hr]
  rfl

end DecodeTheorems

/-- The text `1. e4 1-0 e5 0-1` decodes on the sample board to a game of two
moves whose outcome is the last result token, `0-1`. -/
theorem decodePGN_outcome_last_result_witness :
    decodePGN demoBoard "1. e4 1-0 e5 0-1".toList =
      .ok { tagPairs := [], moves := ["e4".toList, "e5".toList], positions := [0, 1, 2],
            notn := demoAlgebraic, outcome := BlackWon, ignoreAutomaticDraws := true } ∧
    (resultTokens "1. e4 1-0 e5 0-1".toList).getLast? = some BlackWon ∧
    ({ tagPairs := [], moves := ["e4".toList, "e5".toList], positions := [0, 1, 2],
       notn := demoAlgebraic, outcome := BlackWon,
       ignoreAutomaticDraws := true } : PgnGame Nat (List Char)).outcome = BlackWon :=
  have h : decodePGN demoBoard "1. e4 1-0 e5 0-1".toList =
      .ok { tagPairs := [], moves := ["e4".toList, "e5".toList], positions := [0, 1, 2],
            notn := demoAlgebraic, outcome := BlackWon, ignoreAutomaticDraws := true } := by rfl
  have hr : (resultTokens "1. e4 1-0 e5 0-1".toList).getLast? = some BlackWon := by decide
  ⟨h, hr, decodePGN_outcome_last_result demoBoard _ _ _ h hr⟩

/-! ## Theorems: the matchers -/

section Matchers
variable {α : Type}

theorem reChar_eq_some (p : Char → Bool) (k : List Char → Option α) (s : List Char) (a : α) :
    reChar p k s = some a ↔ ∃ c cs, s = c :: cs ∧ p c = true ∧ k cs = some a := by
  cases s with
  | nil => simp [reChar]
  | cons c cs =>
    by_cases h : p c = true
    · simp only [reChar, h, if_true, List.cons.injEq]
      constructor
      · intro hk; exact ⟨c, cs, ⟨rfl, rfl⟩, h, hk⟩
      · rintro ⟨_, _, ⟨rfl, rfl⟩, _, hk⟩; exact hk
    · simp only [reChar, h, if_false, List.cons.injEq, false_iff, reduceCtorEq]
      rintro ⟨_, _, ⟨rfl, rfl⟩, hp, _⟩
      exact h hp

theorem reStarLazy_some (p : Char → Bool) (k : List Char → Option α) (s g : List Char) (a : α)
    (h : reStarLazy p k s = some (g, a)) : ∃ u, s = g ++ u ∧ k u = some a := by
  induction s generalizing g with
  | nil =>
    simp only [reStarLazy, Option.map_eq_some'] at h
    obtain ⟨b, hb, he⟩ := h
    cases he
    exact ⟨[], rfl, hb⟩
  | cons c cs ih =>
    unfold reStarLazy at h
    cases hk : k (c :: cs) with
    | some b =>
      simp only [hk] at h
      cases h
      exact ⟨c :: cs, rfl, hk⟩
    | none =>
      simp only [hk] at h
      by_cases hp : p c = true
      · simp only [hp, if_true, Option.map_eq_some'] at h
        obtain ⟨⟨g', b⟩, hb, he⟩ := h
        cases he
        obtain ⟨u, hu, hku⟩ := ih g' hb
        exact ⟨u, by simp [hu], hku⟩
      · simp [hp] at h

theorem reStarGreedy_some (p : Char → Bool) (k : List Char → Option α) (s g : List Char) (a : α)
    (h : reStarGreedy p k s = some (g, a)) : ∃ u, s = g ++ u ∧ k u = some a := by
  induction s generalizing g with
  | nil =>
    simp only [reStarGreedy, Option.map_eq_some'] at h
    obtain ⟨b, hb, he⟩ := h
    cases he
    exact ⟨[], rfl, hb⟩
  | cons c cs ih =>
    unfold reStarGreedy at h
    by_cases hp : p c = true
    · simp only [hp, if_true] at h
      cases hr : reStarGreedy p k cs with
      | some r =>
        obtain ⟨g', b⟩ := r
        simp only [hr] at h
        cases h
        obtain ⟨u, hu, hku⟩ := ih g' hr
        exact ⟨u, by simp [hu], hku⟩
      | none =>
        simp only [hr, Option.map_eq_some'] at h
        obtain ⟨b, hb, he⟩ := h
        cases he
        exact ⟨c :: cs, rfl, hb⟩
    · rw [if_neg hp] at h
      simp only [Option.map_eq_some'] at h
      obtain ⟨b, hb, he⟩ := h
      cases he
      exact ⟨c :: cs, rfl, hb⟩

theorem reFind_some (m : List Char → Option α) (s : List Char) (i : Nat) (a : α)
    (h : reFind m s = some (i, a)) : i ≤ s.length ∧ m (s.drop i) = some a := by
  induction s generalizing i with
  | nil =>
    simp only [reFind, Option.map_eq_some'] at h
    obtain ⟨b, hb, he⟩ := h
    cases he
    exact ⟨le_refl _, hb⟩
  | cons c cs ih =>
    unfold reFind at h
    cases hm : m (c :: cs) with
    | some b =>
      simp only [hm] at h
      cases h
      exact ⟨Nat.zero_le _, hm⟩
    | none =>
      simp only [hm, Option.map_eq_some'] at h
      obtain ⟨⟨j, b⟩, hb, he⟩ := h
      cases he
      obtain ⟨hj, hmj⟩ := ih j hb
      exact ⟨Nat.succ_le_succ hj, hmj⟩

theorem reFind_eq_none (m : List Char → Option α) (s : List Char) :
    reFind m s = none ↔ ∀ i, i ≤ s.length → m (s.drop i) = none := by
  induction s with
  | nil =>
    simp only [reFind, Option.map_eq_none', List.length_nil, Nat.le_zero, List.drop_nil]
    constructor
    · intro h i _; exact h
    · intro h; exact h 0 rfl
  | cons c cs ih =>
    unfold reFind
    cases hm : m (c :: cs) with
    | some b =>
      simp only [false_iff, reduceCtorEq]
      intro h
      have := h 0 (Nat.zero_le _)
      simp [hm] at this
    | none =>
      simp only [Option.map_eq_none', ih]
      constructor
      · intro h i hi
        cases i with
        | zero => exact hm
        | succ j => exact h j (Nat.le_of_succ_le_succ hi)
      · intro h i hi
        exact h (i + 1) (Nat.succ_le_succ hi)

end Matchers

/-! ## Theorems: removeSection -/

/-- A match of the section pattern is the left delimiter, the text between,
and the right delimiter. -/
theorem sectionAt_some (l r : Char) (s g rest : List Char)
    (h : sectionAt l r s = some (g, rest)) : s = l :: (g ++ r :: rest) := by
  unfold sectionAt at h
  rw [reChar_eq_some] at h
  obtain ⟨c, cs, hs, hc, h⟩ := h
  obtain ⟨u, hu, hk⟩ := reStarLazy_some _ _ _ _ _ h
  rw [reChar_eq_some] at hk
  obtain ⟨c', cs', hu', hc', hk'⟩ := hk
  cases hk'
  simp only [decide_eq_true_eq] at hc hc'
  subst hc hc' hu' hu hs
  rfl

/-- The match `FindStringIndex` reports lies inside the string and has the
shape of a section, so deleting it shortens the string by two characters or
more. -/
theorem sectionFindStringIndex_some (l r : Char) (s : List Char) (i j : Nat)
    (h : sectionFindStringIndex l r s = some (i, j)) :
    ∃ g rest, s = s.take i ++ l :: (g ++ r :: rest) ∧ s.drop j = rest ∧
      j = i + g.length + 2 ∧ i ≤ s.length := by
  unfold sectionFindStringIndex at h
  simp only [Option.map_eq_some'] at h
  obtain ⟨⟨i', g, rest⟩, hf, he⟩ := h
  simp only [Prod.mk.injEq] at he
  obtain ⟨hi, hj⟩ := he
  subst hi
  obtain ⟨hle, hm⟩ := reFind_some _ _ _ _ hf
  have hd := sectionAt_some l r _ g rest hm
  have hs : s = s.take i' ++ l :: (g ++ r :: rest) := by
    rw [← hd, List.take_append_drop]
  have hlen : s.length = i' + (g.length + rest.length + 2) := by
    have := congrArg List.length hs
    simp only [List.length_append, List.length_cons, List.length_take, min_eq_left hle] at this
    omega
  have hj' : j = i' + g.length + 2 := by omega
  refine ⟨g, rest, hs, ?_, hj', hle⟩
  have : s.drop j = (s.drop i').drop (g.length + 2) := by
    rw [List.drop_drop, hj', Nat.add_assoc]
  rw [this, hd]
  simp [List.drop_append]

theorem sectionFindStringIndex_shorter (l r : Char) (s : List Char) (i j : Nat)
    (h : sectionFindStringIndex l r s = some (i, j)) :
    (s.take i ++ s.drop j).length + 2 ≤ s.length := by
  obtain ⟨g, rest, hs, hd, _, hle⟩ := sectionFindStringIndex_some l r s i j h
  have hlen := congrArg List.length hs
  rw [hd]
  simp only [List.length_append, List.length_cons, List.length_take, min_eq_left hle] at hlen ⊢
  omega

theorem removeSectionLoop_fuel (l r : Char) (fuel₁ fuel₂ : Nat) (s : List Char)
    (h₁ : s.length ≤ fuel₁) (h₂ : s.length ≤ fuel₂) :
    removeSectionLoop l r fuel₁ s = removeSectionLoop l r fuel₂ s := by
  induction fuel₁ generalizing fuel₂ s with
  | zero =>
    have hs : s = [] := List.length_eq_zero.mp (Nat.le_zero.mp h₁)
    subst hs
    cases fuel₂ with
    | zero => rfl
    | succ m => simp [removeSectionLoop, sectionFindStringIndex, reFind, sectionAt, reChar]
  | succ n ih =>
    cases fuel₂ with
    | zero =>
      have hs : s = [] := List.length_eq_zero.mp (Nat.le_zero.mp h₂)
      subst hs
      simp [removeSectionLoop, sectionFindStringIndex, reFind, sectionAt, reChar]
    | succ m =>
      unfold removeSectionLoop
      cases hf : sectionFindStringIndex l r s with
      | none => rfl
      | some ij =>
        obtain ⟨i, j⟩ := ij
        have := sectionFindStringIndex_shorter l r s i j hf
        show removeSectionLoop l r n (s.take i ++ s.drop j) =
          removeSectionLoop l r m (s.take i ++ s.drop j)
        exact ih m _ (by omega) (by omega)

/-- The loop of `removeSection`, as the source writes it: the fuel of the
model is never used up. -/
theorem removeSection_unfold (l r : Char) (s : List Char) :
    removeSection l r s =
      match sectionFindStringIndex l r s with
      | none => s
      | some i => removeSection l r (s.take i.1 ++ s.drop i.2) := by
  unfold removeSection
  cases hf : sectionFindStringIndex l r s with
  | none =>
    cases s with
    | nil => rfl
    | cons c cs => simp [removeSectionLoop, hf]
  | some ij =>
    obtain ⟨i, j⟩ := ij
    have hsh := sectionFindStringIndex_shorter l r s i j hf
    cases hlen : s.length with
    | zero => omega
    | succ n =>
      simp only [removeSectionLoop, hf]
      exact removeSectionLoop_fuel l r _ _ _ (by omega) (le_refl _)

/-! ## Theorems: streams of games -/

theorem ReadString_line (l rest : List Char) (hl : '\n' ∉ l) :
    ReadString '\n' (l ++ '\n' :: rest) = (l ++ ['\n'], rest, false) := by
  induction l with
  | nil => simp [ReadString]
  | cons c cs ih =>
    have hc : c ≠ '\n' := fun h => hl (by simp [h])
    have hcs : '\n' ∉ cs := fun h => hl (List.mem_cons_of_mem _ h)
    simp [ReadString, hc, ih hcs]

theorem ReadString_shorter (delim : Char) (s : List Char)
    (h : (ReadString delim s).2.2 = false) : (ReadString delim s).2.1.length < s.length := by
  induction s with
  | nil => simp [ReadString] at h
  | cons c cs ih =>
    unfold ReadString at h ⊢
    by_cases hc : c = delim
    · simp [hc]
    · simp only [hc, if_false] at h ⊢
      have := ih h
      simp only [List.length_cons]
      omega

section StreamTheorems
variable {Pos Mv : Type}

/-- One round of the loop of `GamesFromPGN`, by the kind of line read. -/
theorem GamesFromPGN_loop_succ (B : Board Pos Mv) (fuel : Nat) (br : List Char)
    (games : List (PgnGame Pos Mv)) (current : List Char) (count : Nat) :
    GamesFromPGN.loop B (fuel + 1) br games current count =
      if (ReadString '\n' br).2.2 = true then some (games, none)
      else if TrimSpace (ReadString '\n' br).1 = [] then
        if count + 1 = 2 then
          match decodePGN B current with
          | .error err => some ([], some err)
          | .ok game => GamesFromPGN.loop B fuel (ReadString '\n' br).2.1 (games ++ [game]) [] 0
        else GamesFromPGN.loop B fuel (ReadString '\n' br).2.1 games current (count + 1)
      else
        if count = 2 then
          match decodePGN B (current ++ (ReadString '\n' br).1) with
          | .error err => some ([], some err)
          | .ok game => GamesFromPGN.loop B fuel (ReadString '\n' br).2.1 (games ++ [game]) [] 0
        else
          GamesFromPGN.loop B fuel (ReadString '\n' br).2.1 games
            (current ++ (ReadString '\n' br).1) count := by
  rw [GamesFromPGN.loop]
  simp only
  by_cases heof : (ReadString '\n' br).2.2 = true
  · rw [if_pos heof, if_pos heof]
  · rw [if_neg heof, if_neg heof]
    by_cases hb : TrimSpace (ReadString '\n' br).1 = []
    · simp only [hb, if_true]
    · simp only [hb, if_false]

theorem GamesFromPGN_loop_fuel (B : Board Pos Mv) (fuel₁ fuel₂ : Nat) (br : List Char)
    (games : List (PgnGame Pos Mv)) (current : List Char) (count : Nat)
    (h₁ : br.length < fuel₁) (h₂ : br.length < fuel₂) :
    GamesFromPGN.loop B fuel₁ br games current count =
      GamesFromPGN.loop B fuel₂ br games current count := by
  induction fuel₁ generalizing fuel₂ br games current count with
  | zero => omega
  | succ n ih =>
    cases fuel₂ with
    | zero => omega
    | succ m =>
      rw [GamesFromPGN_loop_succ, GamesFromPGN_loop_succ]
      by_cases heof : (ReadString '\n' br).2.2 = true
      · rw [if_pos heof, if_pos heof]
      · rw [if_neg heof, if_neg heof]
        have hsh := ReadString_shorter '\n' br (by simpa using heof)
        have e := fun g c k => ih m (ReadString '\n' br).2.1 g c k (by omega) (by omega)
        split_ifs
        · cases decodePGN B current with
          | error err => rfl
          | ok game => exact e _ _ _
        · exact e _ _ _
        · cases decodePGN B (current ++ (ReadString '\n' br).1) with
          | error err => rfl
          | ok game => exact e _ _ _
        · exact e _ _ _

theorem GamesFromPGN_loop_nil (B : Board Pos Mv) (fuel : Nat)
    (games : List (PgnGame Pos Mv)) (current : List Char) (count : Nat) (h : 0 < fuel) :
    GamesFromPGN.loop B fuel [] games current count = some (games, none) := by
  cases fuel with
  | zero => omega
  | succ n => rw [GamesFromPGN_loop_succ]; rfl

theorem GamesFromPGN_loop_nonblank_line (B : Board Pos Mv) (fuel fuel' : Nat)
    (l tail : List Char) (games : List (PgnGame Pos Mv)) (current : List Char) (count : Nat)
    (hl : '\n' ∉ l) (hnb : TrimSpace (l ++ ['\n']) ≠ []) (hc : count ≠ 2)
    (h : (l ++ '\n' :: tail).length < fuel) (h' : tail.length < fuel') :
    GamesFromPGN.loop B fuel (l ++ '\n' :: tail) games current count =
      GamesFromPGN.loop B fuel' tail games (current ++ (l ++ ['\n'])) count := by
  cases fuel with
  | zero => omega
  | succ n =>
    rw [GamesFromPGN_loop_succ, ReadString_line l tail hl]
    simp only [Bool.false_eq_true, if_false, hnb, hc]
    apply GamesFromPGN_loop_fuel
    · simp only [List.length_append, List.length_cons] at h; omega
    · exact h'

theorem GamesFromPGN_loop_blank_first (B : Board Pos Mv) (fuel fuel' : Nat)
    (l tail : List Char) (games : List (PgnGame Pos Mv)) (current : List Char) (count : Nat)
    (hl : '\n' ∉ l) (hb : TrimSpace (l ++ ['\n']) = []) (hc : count + 1 ≠ 2)
    (h : (l ++ '\n' :: tail).length < fuel) (h' : tail.length < fuel') :
    GamesFromPGN.loop B fuel (l ++ '\n' :: tail) games current count =
      GamesFromPGN.loop B fuel' tail games current (count + 1) := by
  cases fuel with
  | zero => omega
  | succ n =>
    rw [GamesFromPGN_loop_succ, ReadString_line l tail hl]
    simp only [Bool.false_eq_true, if_false, hb, if_true, hc]
    apply GamesFromPGN_loop_fuel
    · simp only [List.length_append, List.length_cons] at h; omega
    · exact h'

theorem GamesFromPGN_loop_blank_second (B : Board Pos Mv) (fuel fuel' : Nat)
    (l tail : List Char) (games : List (PgnGame Pos Mv)) (current : List Char)
    (game : PgnGame Pos Mv)
    (hl : '\n' ∉ l) (hb : TrimSpace (l ++ ['\n']) = []) (hd : decodePGN B current = .ok game)
    (h : (l ++ '\n' :: tail).length < fuel) (h' : tail.length < fuel') :
    GamesFromPGN.loop B fuel (l ++ '\n' :: tail) games current 1 =
      GamesFromPGN.loop B fuel' tail (games ++ [game]) [] 0 := by
  cases fuel with
  | zero => omega
  | succ n =>
    rw [GamesFromPGN_loop_succ, ReadString_line l tail hl]
    simp only [Bool.false_eq_true, if_false, hb, if_true, hd]
    apply GamesFromPGN_loop_fuel
    · simp only [List.length_append, List.length_cons] at h; omega
    · exact h'

theorem GamesFromPGN_loop_nonblank_lines (B : Board Pos Mv) (ls : List (List Char))
    (fuel fuel' : Nat) (tail : List Char) (games : List (PgnGame Pos Mv))
    (current : List Char) (count : Nat)
    (hl : ∀ l ∈ ls, '\n' ∉ l) (hnb : ∀ l ∈ ls, TrimSpace (l ++ ['\n']) ≠ []) (hc : count ≠ 2)
    (h : (unlines ls ++ tail).length < fuel) (h' : tail.length < fuel') :
    GamesFromPGN.loop B fuel (unlines ls ++ tail) games current count =
      GamesFromPGN.loop B fuel' tail games (current ++ unlines ls) count := by
  induction ls generalizing fuel current with
  | nil =>
    simp only [unlines, List.nil_append, List.append_nil] at h ⊢
    exact GamesFromPGN_loop_fuel B _ _ _ _ _ _ h h'
  | cons l ls ih =>
    simp only [unlines, List.append_assoc, List.cons_append] at h ⊢
    rw [GamesFromPGN_loop_nonblank_line B fuel ((unlines ls ++ tail).length + 1) l
      (unlines ls ++ tail) games current count (hl l (List.mem_cons_self _ _))
      (hnb l (List.mem_cons_self _ _)) hc h (Nat.lt_succ_self _)]
    rw [ih _ _ (fun x hx => hl x (List.mem_cons_of_mem _ hx))
      (fun x hx => hnb x (List.mem_cons_of_mem _ hx)) (Nat.lt_succ_self _)]
    simp [List.append_assoc]

theorem GamesFromPGN_loop_record (B : Board Pos Mv) (r : PgnRecord) (game : PgnGame Pos Mv)
    (fuel fuel' : Nat) (tail : List Char) (games : List (PgnGame Pos Mv))
    (hwf : r.WellFormed) (hd : decodePGN B r.nonBlank = .ok game)
    (h : (r.text ++ tail).length < fuel) (h' : tail.length < fuel') :
    GamesFromPGN.loop B fuel (r.text ++ tail) games [] 0 =
      GamesFromPGN.loop B fuel' tail (games ++ [game]) [] 0 := by
  unfold PgnRecord.text at h ⊢
  simp only [List.append_assoc, List.cons_append, List.nil_append] at h ⊢
  rw [GamesFromPGN_loop_nonblank_lines B r.tagLines fuel _ _ games [] 0 hwf.tag_lf
    hwf.tag_nonblank (by decide) h (Nat.lt_succ_self _)]
  rw [GamesFromPGN_loop_blank_first B _ _ r.blank₁ _ games _ 0 hwf.blank₁_lf hwf.blank₁_blank
    (by decide) (Nat.lt_succ_self _) (Nat.lt_succ_self _)]
  rw [GamesFromPGN_loop_nonblank_lines B r.moveLines _ _ _ games _ 1 hwf.move_lf
    hwf.move_nonblank (by decide) (Nat.lt_succ_self _) (Nat.lt_succ_self _)]
  rw [GamesFromPGN_loop_blank_second B _ fuel' r.blank₂ tail games _ game hwf.blank₂_lf
    hwf.blank₂_blank (by simpa [PgnRecord.nonBlank] using hd) (Nat.lt_succ_self _) h']

theorem GamesFromPGN_loop_records (B : Board Pos Mv) (rs : List PgnRecord)
    (gs : List (PgnGame Pos Mv)) (fuel : Nat) (games : List (PgnGame Pos Mv))
    (hwf : ∀ r ∈ rs, r.WellFormed)
    (hd : List.Forall₂ (fun r g => decodePGN B r.nonBlank = .ok g) rs gs)
    (h : (streamText rs).length < fuel) :
    GamesFromPGN.loop B fuel (streamText rs) games [] 0 = some (games ++ gs, none) := by
  induction hd generalizing fuel games with
  | nil =>
    simp only [streamText, List.append_nil]
    exact GamesFromPGN_loop_nil B fuel games [] 0 (by omega)
  | @cons r g rs gs hrg _ ih =>
    simp only [streamText] at h ⊢
    rw [GamesFromPGN_loop_record B r g fuel ((streamText rs).length + 1) (streamText rs) games
      (hwf r (List.mem_cons_self _ _)) hrg h (Nat.lt_succ_self _)]
    rw [ih _ _ (fun x hx => hwf x (List.mem_cons_of_mem _ hx)) (Nat.lt_succ_self _)]
    simp

/-- C6. Batch count: on a stream of `N` records, each made of non-blank tag
lines, a blank line, non-blank movetext lines and a blank line, every line
ending in a line feed, where the `i`-th record's non-blank lines decode to the
game `gs[i]`, `GamesFromPGN` returns no error and exactly the games `gs`, in
stream order; so it returns `N` games. -/
theorem GamesFromPGN_records (B : Board Pos Mv) (rs : List PgnRecord)
    (gs : List (PgnGame Pos Mv)) (hwf : ∀ r ∈ rs, r.WellFormed)
    (hd : List.Forall₂ (fun r g => decodePGN B r.nonBlank = .ok g) rs gs) :
    GamesFromPGN B (streamText rs) = some (gs, none) ∧ gs.length = rs.length := by
  refine ⟨?_, hd.length_eq.symm⟩
  unfold GamesFromPGN
  rw [GamesFromPGN_loop_records B rs gs _ [] hwf hd (Nat.lt_succ_self _)]
  rfl

/-- One round of the loop of `LimitedGamesFromPGN`, by the kind of line read. -/
theorem LimitedGamesFromPGN_loop_succ (B : Board Pos Mv) (nrOfGames : Int) (fuel : Nat)
    (br : List Char) (games : List (PgnGame Pos Mv)) (current : List Char)
    (count totalCount : Nat) :
    LimitedGamesFromPGN.loop B nrOfGames (fuel + 1) br games current count totalCount =
      if (ReadString '\n' br).2.2 = true then some (games, none, totalCount, none)
      else if TrimSpace (ReadString '\n' br).1 = [] then
        if count + 1 = 2 then
          match decodePGN B current with
          | .error err => some ([], none, 0, some err)
          | .ok game =>
            if ((totalCount + 1 : Nat) : Int) < nrOfGames then
              LimitedGamesFromPGN.loop B nrOfGames fuel (ReadString '\n' br).2.1
                (games ++ [game]) [] 0 (totalCount + 1)
            else some (games ++ [game], some (ReadString '\n' br).2.1, totalCount + 1, none)
        else
          LimitedGamesFromPGN.loop B nrOfGames fuel (ReadString '\n' br).2.1 games current
            (count + 1) totalCount
      else
        if count = 2 then
          match decodePGN B (current ++ (ReadString '\n' br).1) with
          | .error err => some ([], none, 0, some err)
          | .ok game =>
            if ((totalCount + 1 : Nat) : Int) < nrOfGames then
              LimitedGamesFromPGN.loop B nrOfGames fuel (ReadString '\n' br).2.1
                (games ++ [game]) [] 0 (totalCount + 1)
            else some (games ++ [game], some (ReadString '\n' br).2.1, totalCount + 1, none)
        else
          LimitedGamesFromPGN.loop B nrOfGames fuel (ReadString '\n' br).2.1 games
            (current ++ (ReadString '\n' br).1) count totalCount := by
  rw [LimitedGamesFromPGN.loop]
  by_cases heof : (ReadString '\n' br).2.2 = true
  · rw [if_pos heof, if_pos heof]
  · rw [if_neg heof, if_neg heof]
    by_cases hb : TrimSpace (ReadString '\n' br).1 = []
    · rw [if_pos hb, if_pos hb, if_pos hb]
    · rw [if_neg hb, if_neg hb, if_neg hb]

theorem LimitedSpec_of_rest (B : Board Pos Mv) (fuel : Nat) (br rest : List Char)
    (lg acc : List (PgnGame Pos Mv)) (current current' : List Char)
    (count count' totalCount : Nat) (pre : List (PgnGame Pos Mv))
    (res : Option (List (PgnGame Pos Mv) × Option (List Char) × Nat × Option (List Char)))
    (hlen : rest.length < br.length)
    (hg : GamesFromPGN.loop B (fuel + 1) br acc current count =
      GamesFromPGN.loop B fuel rest (acc ++ pre) current' count')
    (h : LimitedSpec B fuel rest (lg ++ pre) (acc ++ pre) current' count'
      (totalCount + pre.length) res) :
    LimitedSpec B (fuel + 1) br lg acc current count totalCount res := by
  rcases h with ⟨e, h1, h2⟩ | ⟨X, h1, h2⟩ | ⟨X, br', h1, h2, h3⟩
  · exact Or.inl ⟨e, h1, hg.trans h2⟩
  · refine Or.inr (Or.inl ⟨pre ++ X, ?_, ?_⟩)
    · rw [h1]; simp [Nat.add_assoc]
    · rw [hg, h2]; simp
  · refine Or.inr (Or.inr ⟨pre ++ X, br', ?_, by omega, ?_⟩)
    · rw [h1]; simp [Nat.add_assoc]
    · rw [hg, h3]; simp

theorem LimitedGamesFromPGN_loop_spec (B : Board Pos Mv) (nrOfGames : Int) (fuel : Nat)
    (br : List Char) (lg acc : List (PgnGame Pos Mv)) (current : List Char)
    (count totalCount : Nat) (h : br.length < fuel) :
    LimitedSpec B fuel br lg acc current count totalCount
      (LimitedGamesFromPGN.loop B nrOfGames fuel br lg current count totalCount) := by
  induction fuel generalizing br lg acc current count totalCount with
  | zero => omega
  | succ n ih =>
    rw [LimitedGamesFromPGN_loop_succ]
    have hG := GamesFromPGN_loop_succ B n br acc current count
    by_cases heof : (ReadString '\n' br).2.2 = true
    · rw [if_pos heof] at hG ⊢
      exact Or.inr (Or.inl ⟨[], by simp, by simpa using hG⟩)
    · rw [if_neg heof] at hG ⊢
      have hsh := ReadString_shorter '\n' br (by simpa using heof)
      have hn : (ReadString '\n' br).2.1.length < n := by omega
      -- the round that decodes `cur` after a second blank line
      have decodeCase : ∀ cur : List Char,
          GamesFromPGN.loop B (n + 1) br acc current count =
            (match decodePGN B cur with
              | .error err => some ([], some err)
              | .ok game =>
                GamesFromPGN.loop B n (ReadString '\n' br).2.1 (acc ++ [game]) [] 0) →
          LimitedSpec B (n + 1) br lg acc current count totalCount
            (match decodePGN B cur with
              | .error err => some ([], none, 0, some err)
              | .ok game =>
                if ((totalCount + 1 : Nat) : Int) < nrOfGames then
                  LimitedGamesFromPGN.loop B nrOfGames n (ReadString '\n' br).2.1
                    (lg ++ [game]) [] 0 (totalCount + 1)
                else
                  some (lg ++ [game], some (ReadString '\n' br).2.1, totalCount + 1, none)) := by
        intro cur hG'
        cases hd : decodePGN B cur with
        | error err =>
          rw [hd] at hG'
          exact Or.inl ⟨err, rfl, hG'⟩
        | ok game =>
          rw [hd] at hG'
          simp only at hG' ⊢
          by_cases hlim : ((totalCount + 1 : Nat) : Int) < nrOfGames
          · rw [if_pos hlim]
            exact LimitedSpec_of_rest B n br _ lg acc current [] count 0 totalCount [game] _
              hsh hG' (ih _ _ _ _ _ _ hn)
          · rw [if_neg hlim]
            refine Or.inr (Or.inr ⟨[game], (ReadString '\n' br).2.1, rfl, hsh, ?_⟩)
            rw [hG']
            exact GamesFromPGN_loop_fuel B _ _ _ _ _ _ hn (Nat.lt_succ_self _)
      -- the round that only reads a line
      have readCase : ∀ (cur : List Char) (cnt : Nat),
          GamesFromPGN.loop B (n + 1) br acc current count =
            GamesFromPGN.loop B n (ReadString '\n' br).2.1 acc cur cnt →
          LimitedSpec B (n + 1) br lg acc current count totalCount
            (LimitedGamesFromPGN.loop B nrOfGames n (ReadString '\n' br).2.1 lg cur cnt
              totalCount) := by
        intro cur cnt hG'
        have := ih (ReadString '\n' br).2.1 (lg ++ []) (acc ++ []) cur cnt (totalCount + 0) hn
        simp only [List.append_nil, Nat.add_zero] at this
        exact LimitedSpec_of_rest B n br _ lg acc current cur count cnt totalCount [] _
          hsh (by simpa using hG') (by simpa using this)
      by_cases hb : TrimSpace (ReadString '\n' br).1 = []
      · rw [if_pos hb] at hG ⊢
        by_cases hc : count + 1 = 2
        · rw [if_pos hc] at hG ⊢
          exact decodeCase _ hG
        · rw [if_neg hc] at hG ⊢
          exact readCase _ _ hG
      · rw [if_neg hb] at hG ⊢
        by_cases hc : count = 2
        · rw [if_pos hc] at hG ⊢
          exact decodeCase _ hG
        · rw [if_neg hc] at hG ⊢
          exact readCase _ _ hG

theorem LimitedReadAll_spec (B : Board Pos Mv) (nrOfGames : Int) (fuel : Nat) (br : List Char)
    (acc : List (PgnGame Pos Mv)) (h : br.length < fuel) :
    ∃ calls gres, LimitedReadAll B nrOfGames fuel br = some calls ∧
      GamesFromPGN.loop B (br.length + 1) br acc [] 0 = some gres ∧
      ((∃ c ∈ calls, c.2.2.2 ≠ none) ↔ gres.2 ≠ none) ∧
      (gres.2 = none →
        acc ++ (calls.map (fun c => c.1)).flatten = gres.1 ∧
        acc.length + (calls.map (fun c => c.2.2.1)).sum = gres.1.length) := by
  induction fuel generalizing br acc with
  | zero => omega
  | succ n ih =>
    rw [LimitedReadAll]
    unfold LimitedGamesFromPGNReader LimitedGamesFromPGN
    have hs := LimitedGamesFromPGN_loop_spec B nrOfGames (br.length + 1) br [] acc [] 0 0
      (Nat.lt_succ_self _)
    rcases hs with ⟨e, h1, h2⟩ | ⟨X, h1, h2⟩ | ⟨X, br', h1, h2, h3⟩
    · rw [h1]
      exact ⟨_, _, rfl, h2, by simp, by simp⟩
    · rw [h1]
      refine ⟨_, _, rfl, h2, by simp, ?_⟩
      intro _
      simp
    · rw [h1]
      simp only
      obtain ⟨calls, gres, hc, hg, herr, hok⟩ := ih br' (acc ++ X) (by omega)
      rw [hc]
      refine ⟨_, gres, rfl, h3.trans hg, ?_, ?_⟩
      · rw [← herr]
        simp
      · intro hnone
        obtain ⟨ha, hb⟩ := hok hnone
        constructor
        · rw [← ha]; simp
        · rw [← hb]; simp [Nat.add_assoc]

/-- C7. Incremental decoding equals whole-stream decoding: for every stream
and every bound `nrOfGames`, calling `LimitedGamesFromPGNReader` on the reader
and then on each reader it returns, until it returns `nil`, terminates
(`r.length + 1` calls are enough) and `GamesFromPGN` returns on the same
stream; some call reports an error exactly when `GamesFromPGN` does, and when
it does not, the concatenation of the returned game lists is the game list of
`GamesFromPGN` and the returned counts add up to its length. -/
theorem LimitedGamesFromPGNReader_iterate (B : Board Pos Mv) (nrOfGames : Int)
    (r : List Char) :
    ∃ calls gres, LimitedReadAll B nrOfGames (r.length + 1) r = some calls ∧
      GamesFromPGN B r = some gres ∧
      ((∃ c ∈ calls, c.2.2.2 ≠ none) ↔ gres.2 ≠ none) ∧
      (gres.2 = none →
        (calls.map (fun c => c.1)).flatten = gres.1 ∧
        (calls.map (fun c => c.2.2.1)).sum = gres.1.length) := by
  obtain ⟨calls, gres, hc, hg, herr, hok⟩ :=
    LimitedReadAll_spec B nrOfGames (r.length + 1) r [] (Nat.lt_succ_self _)
  refine ⟨calls, gres, hc, hg, herr, ?_⟩
  intro hnone
  simpa using hok hnone

end StreamTheorems

/-- The sample records are well formed. -/
theorem demoRecords_wellFormed : ∀ r ∈ demoRecords, r.WellFormed := by
  intro r hr
  simp only [demoRecords, List.mem_cons, List.mem_singleton, List.not_mem_nil, or_false] at hr
  rcases hr with rfl | rfl <;>
    exact ⟨by decide, by decide, by decide, by decide, by decide, by decide, by decide, by decide⟩

/-- The sample records decode to the sample games on the sample board. -/
theorem demoRecords_decode :
    List.Forall₂ (fun r g => decodePGN demoBoard r.nonBlank = .ok g) demoRecords demoGames :=
  List.Forall₂.cons rfl (List.Forall₂.cons rfl List.Forall₂.nil)

/-- The stream of the two sample records decodes to the two sample games. -/
theorem GamesFromPGN_records_witness :
    (∀ r ∈ demoRecords, r.WellFormed) ∧
    List.Forall₂ (fun r g => decodePGN demoBoard r.nonBlank = .ok g) demoRecords demoGames ∧
    GamesFromPGN demoBoard (streamText demoRecords) = some (demoGames, none) ∧
    demoGames.length = demoRecords.length :=
  ⟨demoRecords_wellFormed, demoRecords_decode,
    GamesFromPGN_records demoBoard demoRecords demoGames demoRecords_wellFormed
      demoRecords_decode⟩

/-! ## Theorems: tag pairs -/

theorem tagPairAt_eq (s : List Char) :
    tagPairAt s = reChar (fun c => c = '[') (reStarGreedy reDot tagValue) s := rfl

theorem reStarGreedy_append_left {α : Type} (p : Char → Bool) (k : List Char → Option α)
    (pre s g : List Char) (a : α) (hpre : ∀ c ∈ pre, p c = true)
    (h : reStarGreedy p k s = some (g, a)) :
    reStarGreedy p k (pre ++ s) = some (pre ++ g, a) := by
  induction pre with
  | nil => simpa using h
  | cons c cs ih =>
    have hc : p c = true := hpre c (List.mem_cons_self _ _)
    have := ih (fun x hx => hpre x (List.mem_cons_of_mem _ hx))
    rw [List.cons_append, reStarGreedy, if_pos hc, this]
    rfl

theorem tagClose_line_end (tail : List Char) (h : LineEnd tail) :
    reStarGreedy reDot tagClose (']' :: tail) = none := by
  rcases h with rfl | ⟨t, rfl, _⟩
  · decide
  · simp [reStarGreedy, tagClose, reChar, reDot]

theorem tagClose_value (V tail : List Char) (hn : '\n' ∉ V) (h : LineEnd tail) :
    reStarGreedy reDot tagClose (V ++ '"' :: ']' :: tail) = some (V, tail) := by
  have hbase : reStarGreedy reDot tagClose ('"' :: ']' :: tail) = some ([], tail) := by
    rw [reStarGreedy, tagClose_line_end tail h]
    simp [tagClose, reChar, reDot]
  have := reStarGreedy_append_left reDot tagClose V _ _ _
    (fun c hc => by
      have : c ≠ '\n' := fun e => hn (e ▸ hc)
      simp [reDot, this]) hbase
  simpa using this

theorem tagValue_cons (c : Char) (u : List Char) :
    tagValue (c :: u) =
      if reSpace c = true then reChar (fun c => c = '"') (reStarGreedy reDot tagClose) u
      else none := rfl

theorem tagValue_nil : tagValue [] = none := rfl

theorem tagValue_not_space (c : Char) (u : List Char) (h : reSpace c = false) :
    tagValue (c :: u) = none := by
  rw [tagValue_cons, h]; rfl

/-- Behind the opening quote of a tag line no other split of group 1 matches:
the only double quote left is the closing one, and behind it the line ends. -/
theorem tagValue_inside (V tail : List Char) (hq : '"' ∉ V) (hn : '\n' ∉ V) (h : LineEnd tail) :
    reStarGreedy reDot tagValue (V ++ '"' :: ']' :: tail) = none := by
  induction V with
  | nil =>
    have h1 : reStarGreedy reDot tagValue tail = none := by
      rcases h with rfl | ⟨t, rfl, ht⟩
      · rfl
      · have : tagValue ('\n' :: t) = none := by
          rw [tagValue_cons]
          cases t with
          | nil => rfl
          | cons c cs =>
            have hc : c ≠ '"' := fun e => ht (by simp [e])
            simp [reChar, hc, reSpace]
        simp [reStarGreedy, reDot, this]
    have h2 : reStarGreedy reDot tagValue (']' :: tail) = none := by
      rw [reStarGreedy, h1, tagValue_not_space _ _ (by decide)]
      simp [reDot]
    simp only [List.nil_append]
    rw [reStarGreedy, h2, tagValue_not_space _ _ (by decide)]
    simp [reDot]
  | cons c cs ih =>
    have hc : c ≠ '\n' := fun e => hn (by simp [e])
    have hcq : c ≠ '"' := fun e => hq (by simp [e])
    have hcs := ih (fun hx => hq (List.mem_cons_of_mem _ hx))
      (fun hx => hn (List.mem_cons_of_mem _ hx))
    have hk : tagValue (c :: (cs ++ '"' :: ']' :: tail)) = none := by
      rw [tagValue_cons]
      by_cases hsp : reSpace c = true
      · rw [if_pos hsp]
        cases cs with
        | nil =>
          simp only [List.nil_append, reChar, decide_True, if_true]
          exact tagClose_line_end tail h
        | cons d ds =>
          have hd : d ≠ '"' := fun e => hq (by simp [e])
          simp [reChar, hd]
      · rw [if_neg hsp]
    simp only [List.cons_append]
    rw [reStarGreedy, hcs, hk]
    simp [reDot, hc]

/-- The line `[Key "Value"]` is matched alone by `tagPairRegex`, with the key
and the value as its groups. -/
theorem tagPairAt_tagLine (t : TagPair) (tail : List Char) (hk : '\n' ∉ t.Key)
    (hq : '"' ∉ t.Value) (hn : '\n' ∉ t.Value) (h : LineEnd tail) :
    tagPairAt (tagLine t ++ tail) = some (t.Key, t.Value, tail) := by
  have h0 : reStarGreedy reDot tagValue ('"' :: (t.Value ++ '"' :: ']' :: tail)) = none := by
    rw [reStarGreedy, tagValue_inside _ _ hq hn h, tagValue_not_space _ _ (by decide)]
    simp [reDot]
  have h1 : reStarGreedy reDot tagValue (' ' :: '"' :: (t.Value ++ '"' :: ']' :: tail)) =
      some ([], t.Value, tail) := by
    rw [reStarGreedy, h0, tagValue_cons]
    simp [reDot, reSpace, reChar, tagClose_value _ _ hn h]
  have h2 := reStarGreedy_append_left reDot tagValue t.Key _ _ _
    (fun c hc => by
      have : c ≠ '\n' := fun e => hk (e ▸ hc)
      simp [reDot, this]) h1
  rw [tagPairAt_eq]
  simp only [tagLine, List.cons_append, List.append_assoc, List.nil_append, reChar,
    decide_True, if_true]
  simpa using h2

/-- A match of `tagPairRegex` is `[`, group 1, a white-space character, `"`,
group 2, `"`, `]`. -/
theorem tagPairAt_some (s k v rest : List Char) (h : tagPairAt s = some (k, v, rest)) :
    ∃ w, reSpace w = true ∧ s = '[' :: (k ++ w :: '"' :: (v ++ '"' :: ']' :: rest)) := by
  rw [tagPairAt_eq, reChar_eq_some] at h
  obtain ⟨c, cs, hs, hc, h⟩ := h
  obtain ⟨u, hu, hk⟩ := reStarGreedy_some _ _ _ _ _ h
  unfold tagValue at hk
  rw [reChar_eq_some] at hk
  obtain ⟨w, u1, hu1, hw, hk⟩ := hk
  rw [reChar_eq_some] at hk
  obtain ⟨q, u2, hu2, hq, hk⟩ := hk
  obtain ⟨u3, hu3, hk⟩ := reStarGreedy_some _ _ _ _ _ hk
  unfold tagClose at hk
  rw [reChar_eq_some] at hk
  obtain ⟨q', u4, hu4, hq', hk⟩ := hk
  rw [reChar_eq_some] at hk
  obtain ⟨b, u5, hu5, hb, hk⟩ := hk
  cases hk
  simp only [decide_eq_true_eq] at hc hq hq' hb
  subst hc hq hq' hb hu5 hu4 hu3 hu2 hu1 hu hs
  exact ⟨w, hw, rfl⟩

theorem tagPairAt_ne_bracket (c : Char) (cs : List Char) (h : c ≠ '[') :
    tagPairAt (c :: cs) = none := by
  rw [tagPairAt_eq]
  simp [reChar, h]

theorem slice_cons_succ (c : Char) (X : List Char) (i r : Nat) (h : r ≤ X.length) :
    slice (c :: X) (i + 1) ((c :: X).length - r) = slice X i (X.length - r) := by
  unfold slice
  have : (c :: X).length - r = (X.length - r) + 1 := by
    simp only [List.length_cons]; omega
  rw [this, List.take_succ_cons, List.drop_succ_cons]

theorem tagPairRegex.FindAllLoop_skip (fuel : Nat) (c : Char) (X : List Char) (h : c ≠ '[') :
    tagPairRegex.FindAllLoop fuel (c :: X) = tagPairRegex.FindAllLoop fuel X := by
  cases fuel with
  | zero => rfl
  | succ n =>
    rw [tagPairRegex.FindAllLoop, tagPairRegex.FindAllLoop, reFind, tagPairAt_ne_bracket c X h]
    cases hf : reFind tagPairAt X with
    | none => rfl
    | some m =>
      obtain ⟨i, k, v, rest⟩ := m
      obtain ⟨hi, hm⟩ := reFind_some _ _ _ _ hf
      obtain ⟨w, _, hs⟩ := tagPairAt_some _ _ _ _ hm
      have hlen : rest.length ≤ X.length := by
        have h1 := congrArg List.length hs
        simp only [List.length_drop, List.length_cons, List.length_append] at h1
        omega
      simp only [Option.map_some']
      rw [slice_cons_succ c X i rest.length hlen]

theorem reFind_tagPairAt_shorter (s : List Char) (m : Nat × List Char × List Char × List Char)
    (h : reFind tagPairAt s = some m) : m.2.2.2.length < s.length := by
  obtain ⟨i, k, v, rest⟩ := m
  obtain ⟨hi, hm⟩ := reFind_some _ _ _ _ h
  obtain ⟨w, _, hs⟩ := tagPairAt_some _ _ _ _ hm
  have h1 := congrArg List.length hs
  simp only [List.length_drop, List.length_cons, List.length_append] at h1
  show rest.length < s.length
  omega

theorem tagPairRegex.FindAllLoop_fuel (fuel₁ fuel₂ : Nat) (s : List Char)
    (h₁ : s.length ≤ fuel₁) (h₂ : s.length ≤ fuel₂) :
    tagPairRegex.FindAllLoop fuel₁ s = tagPairRegex.FindAllLoop fuel₂ s := by
  induction fuel₁ generalizing fuel₂ s with
  | zero =>
    have hs : s = [] := List.length_eq_zero.mp (Nat.le_zero.mp h₁)
    subst hs
    cases fuel₂ with
    | zero => rfl
    | succ m => rfl
  | succ n ih =>
    cases fuel₂ with
    | zero =>
      have hs : s = [] := List.length_eq_zero.mp (Nat.le_zero.mp h₂)
      subst hs
      rfl
    | succ m =>
      rw [tagPairRegex.FindAllLoop, tagPairRegex.FindAllLoop]
      cases hf : reFind tagPairAt s with
      | none => rfl
      | some r =>
        have := reFind_tagPairAt_shorter s r hf
        simp only
        rw [ih m _ (by omega) (by omega)]

/-- The loop of `FindAllString`, as Go runs it: the fuel of the model is never
used up. -/
theorem tagPairRegex.FindAllString_unfold (s : List Char) :
    tagPairRegex.FindAllString s =
      match reFind tagPairAt s with
      | none => []
      | some m =>
        slice s m.1 (s.length - m.2.2.2.length) :: tagPairRegex.FindAllString m.2.2.2 := by
  unfold tagPairRegex.FindAllString
  cases hf : reFind tagPairAt s with
  | none =>
    cases s with
    | nil => rfl
    | cons c cs => simp [tagPairRegex.FindAllLoop, hf]
  | some r =>
    have hsh := reFind_tagPairAt_shorter s r hf
    cases hlen : s.length with
    | zero => omega
    | succ n =>
      simp only [tagPairRegex.FindAllLoop, hf]
      rw [tagPairRegex.FindAllLoop_fuel n r.2.2.2.length _ (by omega) (le_refl _), hlen]

theorem tagPairRegex.FindAllLoop_match (fuel : Nat) (line tail k v : List Char)
    (h : tagPairAt (line ++ tail) = some (k, v, tail)) :
    tagPairRegex.FindAllLoop (fuel + 1) (line ++ tail) =
      line :: tagPairRegex.FindAllLoop fuel tail := by
  have hf : reFind tagPairAt (line ++ tail) = some (0, k, v, tail) := by
    cases hs : line ++ tail with
    | nil => rw [hs] at h; cases h
    | cons c cs => rw [hs] at h; rw [reFind, h]
  rw [tagPairRegex.FindAllLoop, hf]
  simp [slice]

theorem tagPairRegex.FindAllLoop_none (fuel : Nat) (s : List Char) (h : '[' ∉ s) :
    tagPairRegex.FindAllLoop fuel s = [] := by
  cases fuel with
  | zero => rfl
  | succ n =>
    have hf : reFind tagPairAt s = none := by
      rw [reFind_eq_none]
      intro i _
      cases hd : s.drop i with
      | nil => rfl
      | cons c cs =>
        apply tagPairAt_ne_bracket
        intro e
        apply h
        have : c ∈ s.drop i := by rw [hd]; exact List.mem_cons_self _ _
        exact e ▸ List.mem_of_mem_drop this
    rw [tagPairRegex.FindAllLoop, hf]

theorem tagLine_head (t : TagPair) (u : List Char) : (tagLine t ++ u).head? = some '[' := rfl

/-- `FindAllString` on the tag-pair section `encodePGN` writes, followed by a
text without `[`, finds the tag lines, one match for each. -/
theorem tagPairRegex.FindAllLoop_tagsText (ts : List TagPair) (fuel : Nat) (rest : List Char)
    (hk : ∀ t ∈ ts, '\n' ∉ t.Key) (hq : ∀ t ∈ ts, '"' ∉ t.Value) (hn : ∀ t ∈ ts, '\n' ∉ t.Value)
    (hrest : '[' ∉ rest) (hhead : rest.head? ≠ some '"') (hfuel : ts.length < fuel) :
    tagPairRegex.FindAllLoop fuel (tagsText ts ++ rest) = ts.map tagLine := by
  induction ts generalizing fuel with
  | nil => exact tagPairRegex.FindAllLoop_none fuel rest hrest
  | cons t ts ih =>
    cases fuel with
    | zero => simp at hfuel
    | succ n =>
      have hend : LineEnd ('\n' :: (tagsText ts ++ rest)) := by
        refine Or.inr ⟨_, rfl, ?_⟩
        cases ts with
        | nil => simpa [tagsText] using hhead
        | cons t' ts' => simp [tagsText, tagLine]
      have hm := tagPairAt_tagLine t _ (hk t (List.mem_cons_self _ _))
        (hq t (List.mem_cons_self _ _)) (hn t (List.mem_cons_self _ _)) hend
      simp only [tagsText, List.append_assoc, List.cons_append, List.map_cons]
      rw [tagPairRegex.FindAllLoop_match n _ _ _ _ hm,
        tagPairRegex.FindAllLoop_skip n _ _ (by decide),
        ih n (fun x hx => hk x (List.mem_cons_of_mem _ hx))
          (fun x hx => hq x (List.mem_cons_of_mem _ hx))
          (fun x hx => hn x (List.mem_cons_of_mem _ hx))
          (by simpa using hfuel)]

theorem tagPairRegex.FindStringSubmatch_tagLine (t : TagPair) (hk : '\n' ∉ t.Key)
    (hq : '"' ∉ t.Value) (hn : '\n' ∉ t.Value) :
    tagPairRegex.FindStringSubmatch (tagLine t) = [tagLine t, t.Key, t.Value] := by
  have hm := tagPairAt_tagLine t [] hk hq hn (Or.inl rfl)
  rw [List.append_nil] at hm
  have hf : reFind tagPairAt (tagLine t) = some (0, t.Key, t.Value, []) := by
    rw [tagLine] at hm ⊢
    rw [reFind, hm]
  rw [tagPairRegex.FindStringSubmatch, hf]
  simp [slice]

theorem tagsText_length (ts : List TagPair) : ts.length ≤ (tagsText ts).length := by
  induction ts with
  | nil => simp
  | cons t ts ih =>
    simp only [tagsText, tagLine, List.length_cons, List.length_append]
    omega

/-- `getTagPairs` reads back the tag pairs of a tag-pair section written by
`encodePGN`, in order and with duplicates, when what follows holds no `[` and
does not start with a double quote. -/
theorem getTagPairs_tagsText (ts : List TagPair) (rest : List Char)
    (hk : ∀ t ∈ ts, '\n' ∉ t.Key) (hq : ∀ t ∈ ts, '"' ∉ t.Value) (hn : ∀ t ∈ ts, '\n' ∉ t.Value)
    (hrest : '[' ∉ rest) (hhead : rest.head? ≠ some '"') (hne : rest ≠ []) :
    getTagPairs (tagsText ts ++ rest) = ts := by
  have hfuel : ts.length < (tagsText ts ++ rest).length := by
    have := tagsText_length ts
    have : 0 < rest.length := List.length_pos.mpr hne
    simp only [List.length_append]
    omega
  unfold getTagPairs tagPairRegex.FindAllString
  rw [tagPairRegex.FindAllLoop_tagsText ts _ rest hk hq hn hrest hhead hfuel]
  suffices h : ∀ (us : List TagPair) (acc : List TagPair),
      (∀ t ∈ us, '\n' ∉ t.Key) → (∀ t ∈ us, '"' ∉ t.Value) → (∀ t ∈ us, '\n' ∉ t.Value) →
      (us.map tagLine).foldl
        (fun tagPairs m =>
          let results := tagPairRegex.FindStringSubmatch m
          if results.length = 3 then
            tagPairs ++ [{ Key := results.getD 1 [], Value := results.getD 2 [] }]
          else tagPairs) acc = acc ++ us by
    simpa using h ts [] hk hq hn
  intro us
  induction us with
  | nil => intro acc _ _ _; simp
  | cons u us ih =>
    intro acc hk' hq' hn'
    rw [List.map_cons, List.foldl_cons]
    simp only [tagPairRegex.FindStringSubmatch_tagLine u (hk' u (List.mem_cons_self _ _))
      (hq' u (List.mem_cons_self _ _)) (hn' u (List.mem_cons_self _ _))]
    rw [ih _ (fun x hx => hk' x (List.mem_cons_of_mem _ hx))
      (fun x hx => hq' x (List.mem_cons_of_mem _ hx))
      (fun x hx => hn' x (List.mem_cons_of_mem _ hx))]
    simp

/-! ## Theorems: encodePGN -/

theorem digitChar_ne_bracket (d : Nat) (h : d < 10) : Nat.digitChar d ≠ '[' := by
  interval_cases d <;> decide

theorem toDigitsCore_no_bracket (fuel n : Nat) (ds : List Char) (h : '[' ∉ ds) :
    '[' ∉ Nat.toDigitsCore 10 fuel n ds := by
  induction fuel generalizing n ds with
  | zero => simpa [Nat.toDigitsCore] using h
  | succ f ih =>
    unfold Nat.toDigitsCore
    have hd : '[' ∉ (Nat.digitChar (n % 10)) :: ds := by
      intro hm
      rcases List.mem_cons.mp hm with h1 | h1
      · exact digitChar_ne_bracket (n % 10) (Nat.mod_lt _ (by decide)) h1.symm
      · exact h h1
    simp only
    split_ifs
    · exact hd
    · exact ih _ _ hd

theorem formatNat_no_bracket (n : Nat) : '[' ∉ formatNat n :=
  toDigitsCore_no_bracket _ _ _ (by simp)

section EncodeTheorems
variable {Pos Mv : Type}

theorem encodePGN_tags_foldl (ts : List TagPair) (acc : List Char) :
    ts.foldl
      (fun s tag => s ++ ('[' :: tag.Key ++ ' ' :: '"' :: tag.Value ++ ['"', ']', '\n'])) acc =
      acc ++ tagsText ts := by
  induction ts generalizing acc with
  | nil => simp [tagsText]
  | cons t ts ih =>
    rw [List.foldl_cons, ih]
    simp [tagsText, tagLine, List.append_assoc]

/-- The movetext loop of `encodePGN` returns when every move has its position,
and what it appends holds no `[` when no encoded move text does. -/
theorem encodePGN.moves_spec (g : PgnGame Pos Mv) (ms : List Mv) (i : Nat) (s : List Char)
    (hlen : i + ms.length ≤ g.positions.length)
    (henc : ∀ j m pos, ms.get? j = some m → g.positions.get? (i + j) = some pos →
      '[' ∉ g.notn.Encode pos m) :
    ∃ mid, encodePGN.moves g i ms s = some (s ++ mid) ∧ '[' ∉ mid := by
  induction ms generalizing i s with
  | nil => exact ⟨[], by simp [encodePGN.moves], by simp⟩
  | cons m ms ih =>
    have hi : i < g.positions.length := by
      simp only [List.length_cons] at hlen; omega
    have hpos : g.positions.get? i = some (g.positions.get ⟨i, hi⟩) := List.get?_eq_get hi
    have htxt : '[' ∉ g.notn.Encode (g.positions.get ⟨i, hi⟩) m :=
      henc 0 m _ rfl hpos
    have hrec : ∀ s', ∃ mid, encodePGN.moves g (i + 1) ms s' = some (s' ++ mid) ∧ '[' ∉ mid := by
      intro s'
      apply ih
      · simp only [List.length_cons] at hlen; omega
      · intro j m' pos hm' hp
        apply henc (j + 1) m' pos
        · exact hm'
        · rw [← hp]; congr 1; omega
    rw [encodePGN.moves, hpos]
    simp only
    by_cases hpar : i % 2 = 0
    · rw [if_pos hpar]
      obtain ⟨mid, hmid, hnb⟩ := hrec
        (s ++ (formatNat (i / 2 + 1) ++ '.' :: g.notn.Encode (g.positions.get ⟨i, hi⟩) m))
      refine ⟨(formatNat (i / 2 + 1) ++ '.' :: g.notn.Encode (g.positions.get ⟨i, hi⟩) m) ++ mid,
        by rw [hmid]; simp, ?_⟩
      have := formatNat_no_bracket (i / 2 + 1)
      intro hmem
      rcases List.mem_append.mp hmem with h1 | h1
      · rcases List.mem_append.mp h1 with h2 | h2
        · exact this h2
        · rcases List.mem_cons.mp h2 with h3 | h3
          · exact absurd h3 (by decide)
          · exact htxt h3
      · exact hnb h1
    · rw [if_neg hpar]
      obtain ⟨mid, hmid, hnb⟩ := hrec
        (s ++ (' ' :: g.notn.Encode (g.positions.get ⟨i, hi⟩) m ++ [' ']))
      refine ⟨(' ' :: g.notn.Encode (g.positions.get ⟨i, hi⟩) m ++ [' ']) ++ mid,
        by rw [hmid]; simp, ?_⟩
      intro hmem
      rcases List.mem_append.mp hmem with h1 | h1
      · rcases List.mem_append.mp h1 with h2 | h2
        · rcases List.mem_cons.mp h2 with h3 | h3
          · exact absurd h3 (by decide)
          · exact htxt h3
        · exact absurd (List.mem_singleton.mp h2) (by decide)
      · exact hnb h1

/-- The tag-pair round trip for every outcome without `[`. -/
theorem getTagPairs_encodePGN_of_no_bracket (g : PgnGame Pos Mv)
    (hpos : g.moves.length ≤ g.positions.length)
    (hkey : ∀ t ∈ g.tagPairs, '\n' ∉ t.Key)
    (hquote : ∀ t ∈ g.tagPairs, '"' ∉ t.Value)
    (hval : ∀ t ∈ g.tagPairs, '\n' ∉ t.Value)
    (henc : ∀ i m pos, g.moves.get? i = some m → g.positions.get? i = some pos →
      '[' ∉ g.notn.Encode pos m)
    (hout : '[' ∉ g.outcome) :
    ∃ txt, encodePGN g = some txt ∧ getTagPairs txt = g.tagPairs := by
  obtain ⟨mid, hmid, hnb⟩ := encodePGN.moves_spec g g.moves 0 ([] ++ tagsText g.tagPairs ++ ['\n'])
    (by simpa using hpos) (by simpa using henc)
  refine ⟨tagsText g.tagPairs ++ ('\n' :: (mid ++ ' ' :: g.outcome)), ?_, ?_⟩
  · rw [encodePGN, encodePGN_tags_foldl]
    simp only [hmid]
    simp
  · apply getTagPairs_tagsText _ _ hkey hquote hval
    · simp only [List.mem_cons, List.mem_append, not_or]
      exact ⟨by decide, hnb, by decide, hout⟩
    · simp
    · simp

/-- C5. Tag-pair round trip, order kept: take a game as the package builds
it, with a position for every move and an outcome that is one of the four
`Outcome` values or the empty zero value. When its tag keys hold no line feed,
its tag values no double quote and no line feed, and its encoded move texts no
`[`, then `encodePGN` returns a text and `getTagPairs` of that text is the
game's list of tag pairs: same length, same pair at every index, duplicates
kept, nothing added. -/
theorem getTagPairs_encodePGN (g : PgnGame Pos Mv)
    (hpos : g.moves.length ≤ g.positions.length)
    (hout : IsResult g.outcome ∨ g.outcome = [])
    (hkey : ∀ t ∈ g.tagPairs, '\n' ∉ t.Key)
    (hquote : ∀ t ∈ g.tagPairs, '"' ∉ t.Value)
    (hval : ∀ t ∈ g.tagPairs, '\n' ∉ t.Value)
    (henc : ∀ i m pos, g.moves.get? i = some m → g.positions.get? i = some pos →
      '[' ∉ g.notn.Encode pos m) :
    ∃ txt, encodePGN g = some txt ∧ getTagPairs txt = g.tagPairs := by
  apply getTagPairs_encodePGN_of_no_bracket g hpos hkey hquote hval henc
  rcases hout with (h | h | h | h) | h <;> rw [h] <;> decide

end EncodeTheorems

/-- The two tag pairs of the sample game, of the same key, one with brackets and
a trailing blank in its value and one with an empty value, are read back. -/
theorem getTagPairs_encodePGN_witness :
    ∃ txt, encodePGN demoTagGame = some txt ∧ getTagPairs txt = demoTagGame.tagPairs :=
  getTagPairs_encodePGN demoTagGame (by decide) (by decide) (by decide) (by decide) (by decide)
    (by
      intro i m pos hm _
      have hmem : m ∈ demoTagGame.moves := List.get?_mem hm
      simp only [demoTagGame, List.mem_cons, List.mem_singleton, List.not_mem_nil,
        or_false] at hmem
      rcases hmem with rfl | rfl | rfl
      · show '[' ∉ "e4".toList
        decide
      · show '[' ∉ "e5".toList
        decide
      · show '[' ∉ "Nf3".toList
        decide)

/-! ## Theorems: what removeSection deletes -/

/-- The section pattern matches `l`, a text without `r` and without a line
feed, and `r`. -/
theorem sectionAt_section (l r : Char) (g rest : List Char) (hr : r ∉ g) (hn : '\n' ∉ g) :
    sectionAt l r (l :: (g ++ r :: rest)) = some (g, rest) := by
  have hstar : reStarLazy reDot (reChar (fun c => c = r) some) (g ++ r :: rest) =
      some (g, rest) := by
    induction g with
    | nil => simp [reStarLazy, reChar]
    | cons c cs ih =>
      have hc : c ≠ r := fun e => hr (by simp [e])
      have hcn : c ≠ '\n' := fun e => hn (by simp [e])
      have := ih (fun hx => hr (List.mem_cons_of_mem _ hx))
        (fun hx => hn (List.mem_cons_of_mem _ hx))
      simp [reStarLazy, reChar, hc, reDot, hcn, this]
  simp [sectionAt, reChar, hstar]

theorem sectionAt_ne (l r c : Char) (cs : List Char) (h : c ≠ l) :
    sectionAt l r (c :: cs) = none := by
  simp [sectionAt, reChar, h]

theorem sectionAt_nil (l r : Char) : sectionAt l r [] = none := rfl

/-- Before the first `l` nothing matches: the search starts behind a prefix
without `l`. -/
theorem reFind_sectionAt_append_left (l r : Char) (a s : List Char) (ha : l ∉ a) :
    reFind (sectionAt l r) (a ++ s) =
      (reFind (sectionAt l r) s).map (fun m => (m.1 + a.length, m.2)) := by
  induction a with
  | nil =>
    simp only [List.nil_append, List.length_nil, Nat.add_zero]
    cases reFind (sectionAt l r) s <;> rfl
  | cons c cs ih =>
    have hc : c ≠ l := fun e => ha (by simp [e])
    rw [List.cons_append, reFind, sectionAt_ne l r c _ hc,
      ih (fun hx => ha (List.mem_cons_of_mem _ hx))]
    cases reFind (sectionAt l r) s with
    | none => rfl
    | some m => simp [Nat.add_assoc]

theorem sectionFindStringIndex_append_left (l r : Char) (a s : List Char) (ha : l ∉ a) :
    sectionFindStringIndex l r (a ++ s) =
      (sectionFindStringIndex l r s).map (fun i => (i.1 + a.length, i.2 + a.length)) := by
  rw [sectionFindStringIndex, reFind_sectionAt_append_left l r a s ha, sectionFindStringIndex]
  cases hf : reFind (sectionAt l r) s with
  | none => rfl
  | some m =>
    obtain ⟨i, g, rest⟩ := m
    obtain ⟨hi, hm⟩ := reFind_some _ _ _ _ hf
    have hd := sectionAt_some l r _ g rest hm
    have hlen : rest.length ≤ s.length := by
      have h1 := congrArg List.length hd
      simp only [List.length_drop, List.length_cons, List.length_append] at h1
      omega
    simp only [Option.map_some', List.length_append, Option.some.injEq, Prod.mk.injEq,
      true_and]
    omega

theorem sectionFindStringIndex_none_of_not_mem (l r : Char) (s : List Char) (h : l ∉ s) :
    sectionFindStringIndex l r s = none := by
  have := sectionFindStringIndex_append_left l r s [] h
  simpa using this

/-- `removeSection` leaves a text without the left delimiter as it is. -/
theorem removeSection_of_not_mem (l r : Char) (s : List Char) (h : l ∉ s) :
    removeSection l r s = s := by
  rw [removeSection_unfold, sectionFindStringIndex_none_of_not_mem l r s h]

/-- `removeSection` does not touch a prefix without the left delimiter. -/
theorem removeSection_append_left (l r : Char) (a s : List Char) (ha : l ∉ a) :
    removeSection l r (a ++ s) = a ++ removeSection l r s := by
  generalize hn : s.length = n
  induction n using Nat.strong_induction_on generalizing s with
  | _ n ih =>
    rw [removeSection_unfold, removeSection_unfold l r s, sectionFindStringIndex_append_left l r a s ha]
    cases hf : sectionFindStringIndex l r s with
    | none => rfl
    | some ij =>
      obtain ⟨i, j⟩ := ij
      have hsh := sectionFindStringIndex_shorter l r s i j hf
      simp only [Option.map_some']
      have e : List.take (i + a.length) (a ++ s) ++ List.drop (j + a.length) (a ++ s) =
          a ++ (s.take i ++ s.drop j) := by
        rw [Nat.add_comm i, Nat.add_comm j, List.take_append, List.drop_append]
        simp
      rw [e]
      exact ih _ (by omega) _ rfl

/-- C17-style fact: a section whose text holds no right delimiter and no line
feed, behind a prefix without the left delimiter, is deleted whole. -/
theorem removeSection_section (l r : Char) (a g rest : List Char) (ha : l ∉ a) (hr : r ∉ g)
    (hn : '\n' ∉ g) :
    removeSection l r (a ++ l :: (g ++ r :: rest)) = removeSection l r (a ++ rest) := by
  have hf : sectionFindStringIndex l r (l :: (g ++ r :: rest)) = some (0, g.length + 2) := by
    rw [sectionFindStringIndex, reFind, sectionAt_section l r g rest hr hn]
    simp only [Option.map_some', List.length_cons, List.length_append, Option.some.injEq,
      Prod.mk.injEq, true_and]
    omega
  rw [removeSection_append_left l r a _ ha, removeSection_append_left l r a _ ha,
    removeSection_unfold l r (l :: (g ++ r :: rest)), hf]
  simp only [List.take_zero, List.nil_append]
  have : List.drop (g.length + 2) (l :: (g ++ r :: rest)) = rest := by
    rw [List.drop_succ_cons, show g ++ r :: rest = (g ++ [r]) ++ rest by simp]
    exact List.drop_left' (by simp)
  rw [this]

theorem reStarLazy_close_none (r : Char) (y : List Char) (hy : r ∉ y) :
    reStarLazy reDot (reChar (fun c => c = r) some) y = none := by
  induction y with
  | nil => rfl
  | cons c cs ih =>
    have hc : c ≠ r := fun e => hy (by simp [e])
    have := ih (fun hx => hy (List.mem_cons_of_mem _ hx))
    simp [reStarLazy, reChar, hc, this]

theorem reStarLazy_close_append (r : Char) (x y : List Char) (hy : r ∉ y) :
    reStarLazy reDot (reChar (fun c => c = r) some) (x ++ y) =
      (reStarLazy reDot (reChar (fun c => c = r) some) x).map (fun p => (p.1, p.2 ++ y)) := by
  induction x with
  | nil => rw [List.nil_append, reStarLazy_close_none r y hy]; rfl
  | cons c cs ih =>
    rw [List.cons_append, reStarLazy, reStarLazy]
    by_cases hc : c = r
    · simp [reChar, hc]
    · by_cases hd : reDot c = true
      · simp only [reChar, hc, decide_False, if_false, hd, if_true, Bool.false_eq_true, ih,
          Option.map_map]
        rfl
      · simp [reChar, hc, hd]

theorem sectionAt_append (l r : Char) (x y : List Char) (hy : r ∉ y) :
    sectionAt l r (x ++ y) = (sectionAt l r x).map (fun p => (p.1, p.2 ++ y)) := by
  cases x with
  | nil =>
    cases y with
    | nil => rfl
    | cons c cs =>
      by_cases hc : c = l
      · simp [sectionAt, reChar, hc,
          reStarLazy_close_none r cs (fun hx => hy (List.mem_cons_of_mem _ hx))]
      · simp [sectionAt, reChar, hc]
  | cons c cs =>
    by_cases hc : c = l
    · simp [sectionAt, reChar, hc, reStarLazy_close_append r cs y hy]
    · simp [sectionAt, reChar, hc]

theorem reFind_sectionAt_append (l r : Char) (x y : List Char) (hy : r ∉ y) :
    reFind (sectionAt l r) (x ++ y) =
      (reFind (sectionAt l r) x).map (fun m => (m.1, m.2.1, m.2.2 ++ y)) := by
  induction x with
  | nil =>
    have h1 : reFind (sectionAt l r) y = none := by
      rw [reFind_eq_none]
      intro i _
      have := sectionAt_append l r [] (y.drop i) (fun hx => hy (List.mem_of_mem_drop hx))
      simpa [sectionAt_nil] using this
    rw [List.nil_append, h1]
    rfl
  | cons c cs ih =>
    rw [List.cons_append, reFind, reFind, ← List.cons_append, sectionAt_append l r (c :: cs) y hy]
    cases sectionAt l r (c :: cs) with
    | some a => rfl
    | none =>
      simp only [Option.map_none', ih, Option.map_map]
      rfl

theorem sectionFindStringIndex_append (l r : Char) (x y : List Char) (hy : r ∉ y) :
    sectionFindStringIndex l r (x ++ y) = sectionFindStringIndex l r x := by
  rw [sectionFindStringIndex, reFind_sectionAt_append l r x y hy, sectionFindStringIndex]
  cases hf : reFind (sectionAt l r) x with
  | none => rfl
  | some m =>
    simp only [Option.map_some', List.length_append, Option.some.injEq, Prod.mk.injEq,
      true_and]
    omega

/-- `removeSection` does not touch a suffix without the right delimiter. -/
theorem removeSection_append_right (l r : Char) (x y : List Char) (hy : r ∉ y) :
    removeSection l r (x ++ y) = removeSection l r x ++ y := by
  generalize hn : x.length = n
  induction n using Nat.strong_induction_on generalizing x with
  | _ n ih =>
    rw [removeSection_unfold, removeSection_unfold l r x, sectionFindStringIndex_append l r x y hy]
    cases hf : sectionFindStringIndex l r x with
    | none => rfl
    | some ij =>
      obtain ⟨i, j⟩ := ij
      have hsh := sectionFindStringIndex_shorter l r x i j hf
      obtain ⟨g, rest, hx, _, hj, hi⟩ := sectionFindStringIndex_some l r x i j hf
      have hjx : j ≤ x.length := by
        have h1 := congrArg List.length hx
        simp only [List.length_append, List.length_cons, List.length_take, min_eq_left hi] at h1
        omega
      simp only
      have e : List.take i (x ++ y) ++ List.drop j (x ++ y) = (x.take i ++ x.drop j) ++ y := by
        rw [List.take_append_of_le_length hi, List.drop_append_of_le_length hjx,
          List.append_assoc]
      rw [e]
      exact ih _ (by omega) _ rfl

/-- `removeSection` only deletes: what is in the result was in the input. -/
theorem mem_of_mem_removeSection (l r c : Char) (x : List Char)
    (h : c ∈ removeSection l r x) : c ∈ x := by
  generalize hn : x.length = n at h
  induction n using Nat.strong_induction_on generalizing x with
  | _ n ih =>
    rw [removeSection_unfold] at h
    cases hf : sectionFindStringIndex l r x with
    | none => rw [hf] at h; exact h
    | some ij =>
      obtain ⟨i, j⟩ := ij
      rw [hf] at h
      have hsh := sectionFindStringIndex_shorter l r x i j hf
      have h' : c ∈ removeSection l r (x.take i ++ x.drop j) := h
      have := ih _ (by omega) _ h' rfl
      rcases List.mem_append.mp this with h1 | h1
      · exact List.mem_of_mem_take h1
      · exact List.mem_of_mem_drop h1

/-- A comment without `}` and without line feed, and a variation without `)`
and without line feed, between texts without delimiters, do not change what
`moveList` returns. -/
theorem moveList_single_line_section (a b c v : List Char) (ha : NoDelimiter a)
    (hb : NoDelimiter b) (hc : '}' ∉ c) (hcn : '\n' ∉ c) (hv : ')' ∉ v) (hvn : '\n' ∉ v) :
    moveList (a ++ '{' :: (c ++ '}' :: b)) = moveList (a ++ b) ∧
    moveList (a ++ '(' :: (v ++ ')' :: b)) = moveList (a ++ b) := by
  have ha1 : '{' ∉ a := fun h => (ha _ h).1 rfl
  have ha2 : '(' ∉ a := fun h => (ha _ h).2.2.1 rfl
  have hb1 : '{' ∉ b := fun h => (hb _ h).1 rfl
  have hb2 : '}' ∉ b := fun h => (hb _ h).2.1 rfl
  constructor
  · unfold moveList moveListText
    simp only
    rw [removeSection_section '{' '}' a c b ha1 hc hcn]
  · have h1 : removeSection '{' '}' (a ++ '(' :: (v ++ ')' :: b)) =
        a ++ '(' :: (removeSection '{' '}' v ++ ')' :: b) := by
      have e1 : a ++ '(' :: (v ++ ')' :: b) = (a ++ ['(']) ++ (v ++ ')' :: b) := by simp
      have hpre : '{' ∉ a ++ ['('] := by
        intro h
        rcases List.mem_append.mp h with h | h
        · exact ha1 h
        · exact absurd (List.mem_singleton.mp h) (by decide)
      have hsuf : '}' ∉ ')' :: b := by
        intro h
        rcases List.mem_cons.mp h with h | h
        · exact absurd h (by decide)
        · exact hb2 h
      rw [e1, removeSection_append_left _ _ _ _ hpre, removeSection_append_right _ _ _ _ hsuf]
      simp
    have h2 : removeSection '{' '}' (a ++ b) = a ++ b :=
      removeSection_of_not_mem _ _ _ (fun h => (List.mem_append.mp h).elim ha1 hb1)
    unfold moveList moveListText
    simp only
    rw [h1, h2, removeSection_section '(' ')' a _ b ha2
      (fun h => hv (mem_of_mem_removeSection _ _ _ _ h))
      (fun h => hvn (mem_of_mem_removeSection _ _ _ _ h))]

/-- A one-line comment and a one-line variation between `1. e4 ` and ` e5`. -/
theorem moveList_single_line_section_witness :
    moveList ("1. e4 ".toList ++ '{' :: ("a (b".toList ++ '}' :: " e5".toList)) =
      moveList ("1. e4 ".toList ++ " e5".toList) ∧
    moveList ("1. e4 ".toList ++ '(' :: ("1. d4 {x}".toList ++ ')' :: " e5".toList)) =
      moveList ("1. e4 ".toList ++ " e5".toList) :=
  moveList_single_line_section "1. e4 ".toList " e5".toList "a (b".toList "1. d4 {x}".toList
    (by decide) (by decide) (by decide) (by decide) (by decide) (by decide)

/-! ## Theorems: game.go, the refused move -/

section GameGoRefused
variable {TagMap Square PieceType GameState : Type}

/-- C19. Illegal move is rejected atomically: on a game whose outcome is
`NoOutcome`, a move that is not valid in the current state makes `Game.Move`
return the error "chess: invalid move " followed by the move's text, and the
game after the call is the game before it, field by field. Hence, for every
game, `Game.Move` returns an error if and only if the outcome is already
settled or the move is not valid. -/
theorem Game.Move_invalid_rejected (R : Rules Square PieceType GameState)
    (g : Game TagMap Square PieceType GameState) (s1 s2 : Square) (promo : PieceType) :
    (g.outcome = NoOutcome →
      R.isValid { s1 := s1, s2 := s2, promo := promo, state := g.state } = false →
      (Game.Move R g s1 s2 promo).1 =
        some ("chess: invalid move ".toList ++
          R.moveString { s1 := s1, s2 := s2, promo := promo, state := g.state }) ∧
      (Game.Move R g s1 s2 promo).2.tagPairs = g.tagPairs ∧
      (Game.Move R g s1 s2 promo).2.moves = g.moves ∧
      (Game.Move R g s1 s2 promo).2.state = g.state ∧
      (Game.Move R g s1 s2 promo).2.outcome = g.outcome ∧
      (Game.Move R g s1 s2 promo).2.method = g.method) ∧
    ((Game.Move R g s1 s2 promo).1 ≠ none ↔
      (g.outcome ≠ NoOutcome ∨
        R.isValid { s1 := s1, s2 := s2, promo := promo, state := g.state } = false)) := by
  constructor
  · intro hout hinv
    simp [Game.Move, hout, hinv]
  · by_cases hout : g.outcome = NoOutcome
    · cases hv : R.isValid { s1 := s1, s2 := s2, promo := promo, state := g.state } <;>
        simp [Game.Move, hout, hv]
    · simp [Game.Move, hout]

/-- The sample game in progress refuses the move from square 1 to square 0,
which the sample rules hold invalid, and stays as it is. -/
theorem Game.Move_invalid_rejected_witness :
    demoGame.outcome = NoOutcome ∧
    demoRules.isValid { s1 := 1, s2 := 0, promo := 0, state := demoGame.state } = false ∧
    (Game.Move demoRules demoGame 1 0 0).1 = some "chess: invalid move m".toList ∧
    (Game.Move demoRules demoGame 1 0 0).2.moves = demoGame.moves ∧
    (Game.Move demoRules demoGame 1 0 0).2.state = demoGame.state :=
  have h := (Game.Move_invalid_rejected demoRules demoGame 1 0 0).1 rfl (by decide)
  ⟨rfl, by decide, h.1, h.2.2.1, h.2.2.2.1⟩

end GameGoRefused

/-! ## Theorems: removeSection, first close and termination -/

theorem removeSection_length_le (l r : Char) (s : List Char) :
    (removeSection l r s).length ≤ s.length := by
  generalize hn : s.length = n
  induction n using Nat.strong_induction_on generalizing s with
  | _ n ih =>
    rw [removeSection_unfold]
    cases hf : sectionFindStringIndex l r s with
    | none => simp [hn]
    | some ij =>
      obtain ⟨i, j⟩ := ij
      have hsh := sectionFindStringIndex_shorter l r s i j hf
      have := ih (s.take i ++ s.drop j).length (by omega) (s.take i ++ s.drop j) rfl
      show (removeSection l r (s.take i ++ s.drop j)).length ≤ n
      omega

theorem removeSection_no_match (l r : Char) (s : List Char) :
    sectionFindStringIndex l r (removeSection l r s) = none := by
  generalize hn : s.length = n
  induction n using Nat.strong_induction_on generalizing s with
  | _ n ih =>
    rw [removeSection_unfold]
    cases hf : sectionFindStringIndex l r s with
    | none => exact hf
    | some ij =>
      obtain ⟨i, j⟩ := ij
      have hsh := sectionFindStringIndex_shorter l r s i j hf
      exact ih (s.take i ++ s.drop j).length (by omega) (s.take i ++ s.drop j) rfl

/-- C20. `removeSection` terminates on every input, for every pair of
delimiters (so for braces, parentheses and square brackets): a match that
`FindStringIndex` reports has at least two characters and lies inside the
string, so the round that deletes it shortens the string by two or more; the
loop ends (every fuel from `s.length` on gives the result of `removeSection`);
the result is not longer than the input and holds no match of the section
pattern. -/
theorem removeSection_terminates (l r : Char) (s : List Char) :
    (∀ i j, sectionFindStringIndex l r s = some (i, j) →
      i + 2 ≤ j ∧ j ≤ s.length ∧ (s.take i ++ s.drop j).length + 2 ≤ s.length) ∧
    (∀ fuel, s.length ≤ fuel → removeSectionLoop l r fuel s = removeSection l r s) ∧
    (removeSection l r s).length ≤ s.length ∧
    sectionFindStringIndex l r (removeSection l r s) = none := by
  refine ⟨?_, ?_, removeSection_length_le l r s, removeSection_no_match l r s⟩
  · intro i j h
    obtain ⟨g, rest, hs, _, hj, hi⟩ := sectionFindStringIndex_some l r s i j h
    have hsh := sectionFindStringIndex_shorter l r s i j h
    have hlen := congrArg List.length hs
    simp only [List.length_append, List.length_cons, List.length_take, min_eq_left hi] at hlen
    exact ⟨by omega, by omega, hsh⟩
  · intro fuel hfuel
    exact removeSectionLoop_fuel l r fuel s.length s hfuel (le_refl _)

/-- C17. Section stripping does not nest, first close wins: in a text
`p ++ "(" ++ m ++ ")" ++ q` where `p` holds no `(` and `m` holds no `)` and no
line feed (`m` may hold `(`), `removeSection` with the parenthesis delimiters
returns what it returns on `p ++ q`; the same holds for the brace delimiters;
and of the nested input `(a (b) c) d` the tail ` c) d` survives. -/
theorem removeSection_first_close_wins :
    (∀ p m q : List Char, '(' ∉ p → ')' ∉ m → '\n' ∉ m →
      removeSection '(' ')' (p ++ '(' :: (m ++ ')' :: q)) = removeSection '(' ')' (p ++ q)) ∧
    (∀ p m q : List Char, '{' ∉ p → '}' ∉ m → '\n' ∉ m →
      removeSection '{' '}' (p ++ '{' :: (m ++ '}' :: q)) = removeSection '{' '}' (p ++ q)) ∧
    removeSection '(' ')' "(a (b) c) d".toList = " c) d".toList :=
  ⟨fun p m q hp hm hn => removeSection_section '(' ')' p m q hp hm hn,
   fun p m q hp hm hn => removeSection_section '{' '}' p m q hp hm hn,
   by decide⟩

/-- With `p` empty, `m = "a (b"` and `q = " c) d"`: the nested input loses its
first section only. -/
theorem removeSection_first_close_wins_witness :
    removeSection '(' ')' ([] ++ '(' :: ("a (b".toList ++ ')' :: " c) d".toList)) =
      removeSection '(' ')' ([] ++ " c) d".toList) ∧
    removeSection '(' ')' ([] ++ " c) d".toList) = " c) d".toList :=
  ⟨removeSection_first_close_wins.1 [] "a (b".toList " c) d".toList
    (by decide) (by decide) (by decide), by decide⟩

/-! ## Theorems: the move-number pattern -/

theorem dropWhile_of_all_false (p : Char → Bool) (t : List Char) (h : ∀ c ∈ t, p c = false) :
    t.dropWhile p = t := by
  cases t with
  | nil => rfl
  | cons c cs => simp [List.dropWhile, h c (List.mem_cons_self _ _)]

theorem TrimSpace_of_no_space (t : List Char) (h : ∀ c ∈ t, isSpace c = false) :
    TrimSpace t = t := by
  unfold TrimSpace
  rw [dropWhile_of_all_false isSpace t h,
    dropWhile_of_all_false isSpace t.reverse (fun c hc => h c (List.mem_reverse.mp hc)),
    List.reverse_reverse]

theorem Split_of_not_mem (sep : Char) (t : List Char) (h : sep ∉ t) : Split sep t = [t] := by
  induction t with
  | nil => rfl
  | cons c cs ih =>
    have hc : c ≠ sep := fun e => h (by simp [e])
    simp [Split, hc, ih (fun hx => h (List.mem_cons_of_mem _ hx))]

theorem Replace_of_not_mem (old new : Char) (t : List Char) (h : old ∉ t) :
    Replace old new t = t := by
  unfold Replace
  induction t with
  | nil => rfl
  | cons c cs ih =>
    have hc : c ≠ old := fun e => h (by simp [e])
    rw [List.map_cons, if_neg hc, ih (fun hx => h (List.mem_cons_of_mem _ hx))]

/-- On a token `moveList` runs one round of its loop on the token itself. -/
theorem moveList_token (t : List Char) (ht : IsToken t) :
    moveList t = moveListStep ([], []) t := by
  obtain ⟨_, hsp, hd⟩ := ht
  have hnl : '\n' ∉ t := fun h => by
    have := hsp _ h
    simp [isSpace] at this
  have hs : ' ' ∉ t := fun h => by
    have := hsp _ h
    simp [isSpace] at this
  have htext : moveListText t = t := by
    unfold moveListText
    simp only
    rw [removeSection_of_not_mem '{' '}' t (fun h => (hd _ h).1 rfl),
      removeSection_of_not_mem '(' ')' t (fun h => (hd _ h).2.2.1 rfl),
      removeSection_of_not_mem '[' ']' t (fun h => (hd _ h).2.2.2.2.1 rfl),
      Replace_of_not_mem _ _ _ hnl]
  rw [moveList, htext, Split_of_not_mem ' ' t hs]
  rfl

theorem reStarGreedy_some_all {α : Type} (p : Char → Bool) (k : List Char → Option α)
    (s g : List Char) (a : α) (h : reStarGreedy p k s = some (g, a)) :
    ∀ c ∈ g, p c = true := by
  induction s generalizing g with
  | nil =>
    simp only [reStarGreedy, Option.map_eq_some'] at h
    obtain ⟨b, _, he⟩ := h
    cases he
    simp
  | cons c cs ih =>
    unfold reStarGreedy at h
    by_cases hp : p c = true
    · rw [if_pos hp] at h
      cases hr : reStarGreedy p k cs with
      | some r =>
        obtain ⟨g', b⟩ := r
        simp only [hr] at h
        cases h
        intro x hx
        rcases List.mem_cons.mp hx with rfl | hx
        · exact hp
        · exact ih g' hr x hx
      | none =>
        simp only [hr, Option.map_eq_some'] at h
        obtain ⟨b, _, he⟩ := h
        cases he
        simp
    · rw [if_neg hp] at h
      simp only [Option.map_eq_some'] at h
      obtain ⟨b, _, he⟩ := h
      cases he
      simp

theorem rePlusGreedy_some {α : Type} (p : Char → Bool) (k : List Char → Option α)
    (s g : List Char) (a : α) (h : rePlusGreedy p k s = some (g, a)) :
    ∃ u, s = g ++ u ∧ g ≠ [] ∧ (∀ c ∈ g, p c = true) ∧ k u = some a := by
  cases s with
  | nil => simp [rePlusGreedy] at h
  | cons c cs =>
    rw [rePlusGreedy] at h
    by_cases hp : p c = true
    · rw [if_pos hp] at h
      simp only [Option.map_eq_some'] at h
      obtain ⟨⟨g', b⟩, hr, he⟩ := h
      cases he
      obtain ⟨u, hu, hk⟩ := reStarGreedy_some p k cs g' _ hr
      refine ⟨u, by simp [hu], by simp, ?_, hk⟩
      intro x hx
      rcases List.mem_cons.mp hx with rfl | hx
      · exact hp
      · exact reStarGreedy_some_all p k cs g' _ hr x hx
    · rw [if_neg hp] at h
      cases h

/-- Group 2 of nothing: `(.*)` takes a whole text without line feed. -/
theorem reStarGreedy_dot_all (r : List Char) (h : '\n' ∉ r) :
    reStarGreedy reDot some r = some (r, []) := by
  have := reStarGreedy_append_left reDot some r [] [] []
    (fun c hc => by
      have : c ≠ '\n' := fun e => h (e ▸ hc)
      simp [reDot, this]) rfl
  simpa using this

/-- The move-number pattern on digits, dots and a rest that does not begin
with a dot: group 1 is the rest. -/
theorem moveNumAt_numbered (d p r : List Char) (hd : d ≠ []) (hdd : ∀ c ∈ d, reDigit c = true)
    (hp : p ≠ []) (hpp : ∀ c ∈ p, c = '.') (hr : r.head? ≠ some '.') (hn : '\n' ∉ r) :
    moveNumAt (d ++ (p ++ r)) = some (r, []) := by
  have hk := reStarGreedy_dot_all r hn
  -- the dots
  have h1 : reStarGreedy (fun c => decide (c = '.')) (reStarGreedy reDot some) r =
      some ([], r, []) := by
    cases r with
    | nil => rfl
    | cons c cs =>
      have hc : c ≠ '.' := fun e => hr (by simp [e])
      rw [reStarGreedy, if_neg (by simpa using hc), hk]
      rfl
  have h2 : rePlusGreedy (fun c => decide (c = '.')) (reStarGreedy reDot some) (p ++ r) =
      some (p, r, []) := by
    cases p with
    | nil => exact absurd rfl hp
    | cons c cs =>
      have hc : c = '.' := hpp c (List.mem_cons_self _ _)
      have := reStarGreedy_append_left (fun c => decide (c = '.')) (reStarGreedy reDot some)
        cs r [] (r, []) (fun x hx => by simp [hpp x (List.mem_cons_of_mem _ hx)]) h1
      rw [List.cons_append, rePlusGreedy, if_pos (by simp [hc]), this]
      simp
  -- the digits
  have h3 : reStarGreedy reDigit
      (rePlusGreedy (fun c => decide (c = '.')) (reStarGreedy reDot some)) (p ++ r) =
      some ([], p, r, []) := by
    cases p with
    | nil => exact absurd rfl hp
    | cons c cs =>
      have hc : c = '.' := hpp c (List.mem_cons_self _ _)
      have hnd : reDigit c = false := by rw [hc]; decide
      rw [List.cons_append, reStarGreedy, if_neg (by simp [hnd]), ← List.cons_append, h2]
      rfl
  have h4 : rePlusGreedy reDigit
      (rePlusGreedy (fun c => decide (c = '.')) (reStarGreedy reDot some)) (d ++ (p ++ r)) =
      some (d, p, r, []) := by
    cases d with
    | nil => exact absurd rfl hd
    | cons c cs =>
      have := reStarGreedy_append_left reDigit
        (rePlusGreedy (fun c => decide (c = '.')) (reStarGreedy reDot some))
        cs (p ++ r) [] (p, r, []) (fun x hx => hdd x (List.mem_cons_of_mem _ hx)) h3
      rw [List.cons_append, rePlusGreedy, if_pos (hdd c (List.mem_cons_self _ _)), this]
      simp
  rw [moveNumAt, h4]

/-- The move-number pattern on a text that does not begin with digits followed
by a dot: the optional group is skipped and group 1 is the text. -/
theorem moveNumAt_plain (t : List Char) (h : ¬ BeginsWithMoveNumber t) (hn : '\n' ∉ t) :
    moveNumAt t = some (t, []) := by
  have hnone : rePlusGreedy reDigit
      (rePlusGreedy (fun c => decide (c = '.')) (reStarGreedy reDot some)) t = none := by
    cases hx : rePlusGreedy reDigit
        (rePlusGreedy (fun c => decide (c = '.')) (reStarGreedy reDot some)) t with
    | none => rfl
    | some x =>
      exfalso
      obtain ⟨g, a⟩ := x
      obtain ⟨u, hu, hg, hgd, hk⟩ := rePlusGreedy_some _ _ _ _ _ hx
      obtain ⟨g2, a2⟩ := a
      obtain ⟨u2, hu2, hg2, hg2d, _⟩ := rePlusGreedy_some _ _ _ _ _ hk
      cases g2 with
      | nil => exact hg2 rfl
      | cons c cs =>
        have hc : c = '.' := by simpa using hg2d c (List.mem_cons_self _ _)
        exact h ⟨g, cs ++ u2, hg, hgd, by rw [hu, hu2, hc]; simp⟩
  rw [moveNumAt, hnone]
  exact reStarGreedy_dot_all t hn

theorem moveNumRegex.FindStringSubmatch_of_moveNumAt (t g : List Char) (ht : t ≠ [])
    (h : moveNumAt t = some (g, [])) :
    moveNumRegex.FindStringSubmatch t = [t, g] := by
  cases t with
  | nil => exact absurd rfl ht
  | cons c cs =>
    rw [moveNumRegex.FindStringSubmatch, reFind, h]
    simp [slice]

theorem moveListStep_of_group (acc : List (List Char) × Outcome) (t g : List Char)
    (hsp : ∀ c ∈ t, isSpace c = false) (hres : ¬ IsResult t) (hne : t ≠ [])
    (hfind : moveNumRegex.FindStringSubmatch t = [t, g]) :
    moveListStep acc t = if g = [] then acc else (acc.1 ++ [g], acc.2) := by
  have hres' : ¬ (t = NoOutcome ∨ t = WhiteWon ∨ t = BlackWon ∨ t = Draw) := hres
  unfold moveListStep
  simp only [TrimSpace_of_no_space t hsp]
  rw [if_neg hres', if_neg hne, hfind]
  by_cases hg : g = []
  · simp [hg]
  · simp [hg]

/-- C18. Move-number prefix stripping. For a token (no white space, brace,
parenthesis or bracket) `d ++ p ++ r` with `d` a non-empty run of decimal
digits, `p` a non-empty run of dots and `r` not beginning with a dot,
`moveList` returns `r` as the one move token when `r` is not empty and no token
when `r` is empty (so `12.` and `38...` disappear). A token that is not a
result literal and does not begin with digits followed by a dot is returned
unchanged. -/
theorem moveList_strips_move_number :
    (∀ d p r : List Char, d ≠ [] → (∀ c ∈ d, reDigit c = true) → p ≠ [] →
      (∀ c ∈ p, c = '.') → r.head? ≠ some '.' → IsToken (d ++ (p ++ r)) →
      moveList (d ++ (p ++ r)) = (if r = [] then [] else [r], [])) ∧
    (∀ t : List Char, IsToken t → ¬ IsResult t → ¬ BeginsWithMoveNumber t →
      moveList t = ([t], [])) := by
  constructor
  · intro d p r hd hdd hp hpp hr htok
    have hsp := htok.2.1
    have hnl : '\n' ∉ r := fun h => by
      have := hsp '\n' (List.mem_append_right _ (List.mem_append_right _ h))
      simp [isSpace] at this
    have hdot : '.' ∈ d ++ (p ++ r) := by
      cases p with
      | nil => exact absurd rfl hp
      | cons c cs =>
        have hc : c = '.' := hpp c (List.mem_cons_self _ _)
        rw [hc]
        exact List.mem_append_right _ (List.mem_append_left _ (List.mem_cons_self _ _))
    have hres : ¬ IsResult (d ++ (p ++ r)) := by
      intro h
      rcases h with h | h | h | h <;> rw [h] at hdot <;> revert hdot <;> decide
    have hfind := moveNumRegex.FindStringSubmatch_of_moveNumAt _ r htok.1
      (moveNumAt_numbered d p r hd hdd hp hpp hr hnl)
    rw [moveList_token _ htok, moveListStep_of_group _ _ r hsp hres htok.1 hfind]
    by_cases hg : r = [] <;> simp [hg]
  · intro t htok hres hnum
    have hsp := htok.2.1
    have hnl : '\n' ∉ t := fun h => by
      have := hsp '\n' h
      simp [isSpace] at this
    have hfind := moveNumRegex.FindStringSubmatch_of_moveNumAt _ t htok.1
      (moveNumAt_plain t hnum hnl)
    rw [moveList_token _ htok, moveListStep_of_group _ _ t hsp hres htok.1 hfind]
    simp [htok.1]

/-- The tokens `12.` and `38...` disappear, `38...Kg7` and `1.e4` lose their
move number, `Nf3` and `12` stay. -/
theorem moveList_strips_move_number_witness :
    moveList "12.".toList = ([], []) ∧ moveList "38...".toList = ([], []) ∧
    moveList "38...Kg7".toList = (["Kg7".toList], []) ∧
    moveList "1.e4".toList = (["e4".toList], []) ∧
    moveList "Nf3".toList = (["Nf3".toList], []) ∧
    moveList "12".toList = (["12".toList], []) :=
  ⟨moveList_strips_move_number.1 "12".toList ".".toList [] (by decide) (by decide) (by decide)
      (by decide) (by decide) (by decide),
   moveList_strips_move_number.1 "38".toList "...".toList [] (by decide) (by decide)
      (by decide) (by decide) (by decide) (by decide),
   moveList_strips_move_number.1 "38".toList "...".toList "Kg7".toList (by decide) (by decide)
      (by decide) (by decide) (by decide) (by decide),
   moveList_strips_move_number.1 "1".toList ".".toList "e4".toList (by decide) (by decide)
      (by decide) (by decide) (by decide) (by decide),
   moveList_strips_move_number.2 "Nf3".toList (by decide) (by decide)
      (by
        rintro ⟨d, rest, hd, hdd, h⟩
        cases d with
        | nil => exact hd rfl
        | cons c cs =>
          have hc := hdd c (List.mem_cons_self _ _)
          have : c = 'N' := by
            have := congrArg List.head? h
            simpa using this.symm
          rw [this] at hc
          revert hc
          decide),
   by decide⟩

/-! ## Theorems: streams that fail or end early -/

theorem ReadString_eof (s : List Char) (h : '\n' ∉ s) : ReadString '\n' s = (s, [], true) := by
  induction s with
  | nil => rfl
  | cons c cs ih =>
    have hc : c ≠ '\n' := fun e => h (by simp [e])
    simp [ReadString, hc, ih (fun hx => h (List.mem_cons_of_mem _ hx))]

section StreamFailTheorems
variable {Pos Mv : Type}

theorem GamesFromPGN_loop_blank_second_error (B : Board Pos Mv) (fuel : Nat)
    (l tail : List Char) (games : List (PgnGame Pos Mv)) (current err : List Char)
    (hl : '\n' ∉ l) (hb : TrimSpace (l ++ ['\n']) = [])
    (hd : decodePGN B current = .error err) (h : 0 < fuel) :
    GamesFromPGN.loop B fuel (l ++ '\n' :: tail) games current 1 = some ([], some err) := by
  cases fuel with
  | zero => omega
  | succ n =>
    rw [GamesFromPGN_loop_succ, ReadString_line l tail hl]
    simp only [Bool.false_eq_true, if_false, hb, if_true, hd]

theorem GamesFromPGN_loop_record_error (B : Board Pos Mv) (r : PgnRecord) (err : List Char)
    (fuel : Nat) (tail : List Char) (games : List (PgnGame Pos Mv))
    (hwf : r.WellFormed) (hd : decodePGN B r.nonBlank = .error err)
    (h : (r.text ++ tail).length < fuel) :
    GamesFromPGN.loop B fuel (r.text ++ tail) games [] 0 = some ([], some err) := by
  unfold PgnRecord.text at h ⊢
  simp only [List.append_assoc, List.cons_append, List.nil_append] at h ⊢
  rw [GamesFromPGN_loop_nonblank_lines B r.tagLines fuel _ _ games [] 0 hwf.tag_lf
    hwf.tag_nonblank (by decide) h (Nat.lt_succ_self _)]
  rw [GamesFromPGN_loop_blank_first B _ _ r.blank₁ _ games _ 0 hwf.blank₁_lf hwf.blank₁_blank
    (by decide) (Nat.lt_succ_self _) (Nat.lt_succ_self _)]
  rw [GamesFromPGN_loop_nonblank_lines B r.moveLines _ _ _ games _ 1 hwf.move_lf
    hwf.move_nonblank (by decide) (Nat.lt_succ_self _) (Nat.lt_succ_self _)]
  exact GamesFromPGN_loop_blank_second_error B _ r.blank₂ tail games _ err hwf.blank₂_lf
    hwf.blank₂_blank (by simpa [PgnRecord.nonBlank] using hd) (Nat.succ_pos _)

theorem GamesFromPGN_loop_records_tail (B : Board Pos Mv) (rs : List PgnRecord)
    (gs : List (PgnGame Pos Mv)) (fuel fuel' : Nat) (tail : List Char)
    (games : List (PgnGame Pos Mv)) (hwf : ∀ r ∈ rs, r.WellFormed)
    (hd : List.Forall₂ (fun r g => decodePGN B r.nonBlank = .ok g) rs gs)
    (h : (streamText rs ++ tail).length < fuel) (h' : tail.length < fuel') :
    GamesFromPGN.loop B fuel (streamText rs ++ tail) games [] 0 =
      GamesFromPGN.loop B fuel' tail (games ++ gs) [] 0 := by
  induction hd generalizing fuel games with
  | nil =>
    simp only [streamText, List.nil_append, List.append_nil] at h ⊢
    exact GamesFromPGN_loop_fuel B _ _ _ _ _ _ h h'
  | @cons r g rs gs hrg _ ih =>
    simp only [streamText, List.append_assoc] at h ⊢
    rw [GamesFromPGN_loop_record B r g fuel ((streamText rs ++ tail).length + 1)
      (streamText rs ++ tail) games (hwf r (List.mem_cons_self _ _)) hrg h (Nat.lt_succ_self _)]
    rw [ih _ _ (fun x hx => hwf x (List.mem_cons_of_mem _ hx)) (Nat.lt_succ_self _)]
    simp

/-- C13. Whole-batch failure: in a stream whose records `rs` decode and are
followed by a record that fails to decode with error `err`, whatever text
`tail` comes behind it, `GamesFromPGN` returns that error together with an
empty (`nil`) game list: none of the games decoded before is returned, and
nothing behind the failing record is decoded (the result does not depend on
`tail`). -/
theorem GamesFromPGN_first_failure (B : Board Pos Mv) (rs : List PgnRecord)
    (gs : List (PgnGame Pos Mv)) (r : PgnRecord) (err tail : List Char)
    (hwf : ∀ x ∈ rs, x.WellFormed)
    (hd : List.Forall₂ (fun x g => decodePGN B x.nonBlank = .ok g) rs gs)
    (hr : r.WellFormed) (hfail : decodePGN B r.nonBlank = .error err) :
    GamesFromPGN B (streamText rs ++ (r.text ++ tail)) = some ([], some err) := by
  unfold GamesFromPGN
  rw [GamesFromPGN_loop_records_tail B rs gs _ ((r.text ++ tail).length + 1) _ [] hwf hd
    (Nat.lt_succ_self _) (Nat.lt_succ_self _)]
  exact GamesFromPGN_loop_record_error B r err _ tail _ hr hfail (Nat.lt_succ_self _)

/-- Lines with fewer than two blank ones among them (the count of blank lines
read before included), and a last line without line feed, end the loop of
`GamesFromPGN` without decoding and without error. -/
theorem GamesFromPGN_loop_unfinished (B : Board Pos Mv) (ls : List (List Char)) (last : List Char)
    (fuel : Nat) (games : List (PgnGame Pos Mv)) (current : List Char) (count : Nat)
    (hl : ∀ l ∈ ls, '\n' ∉ l) (hlast : '\n' ∉ last) (hc : count + blankCount ls < 2)
    (h : (unlines ls ++ last).length < fuel) :
    GamesFromPGN.loop B fuel (unlines ls ++ last) games current count = some (games, none) := by
  induction ls generalizing fuel current count with
  | nil =>
    cases fuel with
    | zero => omega
    | succ n =>
      simp only [unlines, List.nil_append]
      rw [GamesFromPGN_loop_succ, ReadString_eof last hlast]
      rfl
  | cons l ls ih =>
    have hll := hl l (List.mem_cons_self _ _)
    have hls := fun x hx => hl x (List.mem_cons_of_mem _ hx)
    simp only [unlines, List.append_assoc, List.cons_append] at h ⊢
    by_cases hb : TrimSpace (l ++ ['\n']) = []
    · have hc' : count + 1 + blankCount ls < 2 := by
        simp only [blankCount, List.filter_cons, hb, decide_True, if_true,
          List.length_cons] at hc ⊢
        omega
      rw [GamesFromPGN_loop_blank_first B fuel ((unlines ls ++ last).length + 1) l _ games
        current count hll hb (by omega) h (Nat.lt_succ_self _)]
      exact ih _ _ _ hls hc' (Nat.lt_succ_self _)
    · have hc' : count + blankCount ls < 2 := by
        simp only [blankCount, List.filter_cons, hb, decide_False] at hc ⊢
        exact hc
      rw [GamesFromPGN_loop_nonblank_line B fuel ((unlines ls ++ last).length + 1) l _ games
        current count hll hb (by omega) h (Nat.lt_succ_self _)]
      exact ih _ _ _ hls hc' (Nat.lt_succ_self _)

/-- What the loop of `GamesFromPGN` does at the end of input: when the records
`rs` decode to the games `gs` and the stream ends behind them with lines of
which fewer than two are blank and a last line without line feed (possibly
empty), `GamesFromPGN` returns the games `gs` and no error; the lines read
behind the last completed record never reach `decodePGN`. -/
theorem GamesFromPGN_partial_record (B : Board Pos Mv) (rs : List PgnRecord)
    (gs : List (PgnGame Pos Mv)) (ls : List (List Char)) (last : List Char)
    (hwf : ∀ x ∈ rs, x.WellFormed)
    (hd : List.Forall₂ (fun x g => decodePGN B x.nonBlank = .ok g) rs gs)
    (hl : ∀ l ∈ ls, '\n' ∉ l) (hlast : '\n' ∉ last) (hb : blankCount ls < 2) :
    GamesFromPGN B (streamText rs ++ (unlines ls ++ last)) = some (gs, none) := by
  unfold GamesFromPGN
  rw [GamesFromPGN_loop_records_tail B rs gs _ ((unlines ls ++ last).length + 1) _ [] hwf hd
    (Nat.lt_succ_self _) (Nat.lt_succ_self _)]
  rw [GamesFromPGN_loop_unfinished B ls last _ _ [] 0 hl hlast (by omega) (Nat.lt_succ_self _)]
  rfl

end StreamFailTheorems

/-- The sample stream followed by the sample record that fails and by the
sample stream again: the error of the failing record and no game. -/
theorem GamesFromPGN_first_failure_witness :
    (∀ x ∈ demoRecords, x.WellFormed) ∧
    List.Forall₂ (fun x g => decodePGN demoBoard x.nonBlank = .ok g) demoRecords demoGames ∧
    demoBadRecord.WellFormed ∧
    decodePGN demoBoard demoBadRecord.nonBlank =
      .error "chess: pgn invalid move error illegal on move 1".toList ∧
    GamesFromPGN demoBoard
        (streamText demoRecords ++ (demoBadRecord.text ++ streamText demoRecords)) =
      some ([], some "chess: pgn invalid move error illegal on move 1".toList) :=
  have hbad : demoBadRecord.WellFormed :=
    ⟨by decide, by decide, by decide, by decide, by decide, by decide, by decide, by decide⟩
  have hfail : decodePGN demoBoard demoBadRecord.nonBlank =
      .error "chess: pgn invalid move error illegal on move 1".toList := by rfl
  ⟨demoRecords_wellFormed, demoRecords_decode, hbad, hfail,
    GamesFromPGN_first_failure demoBoard demoRecords demoGames demoBadRecord _
      (streamText demoRecords) demoRecords_wellFormed demoRecords_decode hbad hfail⟩

/-- C11 (failing input). The stream of the two sample records followed by a
tag line, a blank line and a movetext line without line feed ends mid-record;
`GamesFromPGN` returns the two sample games and no error, where the claim has
an error, and the doc comment of `GamesFromPGN` all games of the reader or an
error. -/
theorem GamesFromPGN_partial_record_no_error :
    GamesFromPGN demoBoard (streamText demoRecords ++ "[A \"d\"]\n\n1. d4 d5".toList) =
      some (demoGames, none) := by
  rfl

/-- The sample stream followed by a tag line, a blank line, a movetext line and
an unfinished line. -/
theorem GamesFromPGN_partial_record_witness :
    blankCount ["[A \"d\"]".toList, [], "1. d4".toList] < 2 ∧
    GamesFromPGN demoBoard
        (streamText demoRecords ++
          (unlines ["[A \"d\"]".toList, [], "1. d4".toList] ++ "d5".toList)) =
      some (demoGames, none) :=
  ⟨by decide,
    GamesFromPGN_partial_record demoBoard demoRecords demoGames
      ["[A \"d\"]".toList, [], "1. d4".toList] "d5".toList demoRecords_wellFormed
      demoRecords_decode (by decide) (by decide) (by decide)⟩

/-- A stream of one complete game whose movetext line is not followed by a
blank line: the text of the record decodes to a game on the sample board, and
`GamesFromPGN` returns no game and no error. -/
theorem GamesFromPGN_last_record_dropped :
    (∃ g, decodePGN demoBoard "[A \"b\"]1. e4 *".toList = .ok g) ∧
    GamesFromPGN demoBoard "[A \"b\"]\n\n1. e4 *\n".toList = some ([], none) :=
  ⟨⟨_, rfl⟩, rfl⟩

/-! ## Theorems: bounded decoding -/

section LimitedTheorems
variable {Pos Mv : Type}

theorem LimitedGamesFromPGN_loop_fuel (B : Board Pos Mv) (nrOfGames : Int) (fuel₁ fuel₂ : Nat)
    (br : List Char) (games : List (PgnGame Pos Mv)) (current : List Char)
    (count totalCount : Nat) (h₁ : br.length < fuel₁) (h₂ : br.length < fuel₂) :
    LimitedGamesFromPGN.loop B nrOfGames fuel₁ br games current count totalCount =
      LimitedGamesFromPGN.loop B nrOfGames fuel₂ br games current count totalCount := by
  induction fuel₁ generalizing fuel₂ br games current count totalCount with
  | zero => omega
  | succ n ih =>
    cases fuel₂ with
    | zero => omega
    | succ m =>
      rw [LimitedGamesFromPGN_loop_succ, LimitedGamesFromPGN_loop_succ]
      by_cases heof : (ReadString '\n' br).2.2 = true
      · rw [if_pos heof, if_pos heof]
      · rw [if_neg heof, if_neg heof]
        have hsh := ReadString_shorter '\n' br (by simpa using heof)
        have e := fun g c k t => ih m (ReadString '\n' br).2.1 g c k t (by omega) (by omega)
        have hdec : ∀ d : Except (List Char) (PgnGame Pos Mv),
            (match d with
              | .error err => some ([], none, 0, some err)
              | .ok game =>
                if ((totalCount + 1 : Nat) : Int) < nrOfGames then
                  LimitedGamesFromPGN.loop B nrOfGames n (ReadString '\n' br).2.1
                    (games ++ [game]) [] 0 (totalCount + 1)
                else
                  some (games ++ [game], some (ReadString '\n' br).2.1, totalCount + 1, none)) =
            (match d with
              | .error err => some ([], none, 0, some err)
              | .ok game =>
                if ((totalCount + 1 : Nat) : Int) < nrOfGames then
                  LimitedGamesFromPGN.loop B nrOfGames m (ReadString '\n' br).2.1
                    (games ++ [game]) [] 0 (totalCount + 1)
                else
                  some (games ++ [game], some (ReadString '\n' br).2.1, totalCount + 1,
                    none)) := by
          intro d
          cases d with
          | error err => rfl
          | ok game =>
            simp only
            rw [e]
        by_cases hb : TrimSpace (ReadString '\n' br).1 = []
        · rw [if_pos hb, if_pos hb]
          by_cases hc : count + 1 = 2
          · rw [if_pos hc, if_pos hc]
            exact hdec _
          · rw [if_neg hc, if_neg hc]
            exact e _ _ _ _
        · rw [if_neg hb, if_neg hb]
          by_cases hc : count = 2
          · rw [if_pos hc, if_pos hc]
            exact hdec _
          · rw [if_neg hc, if_neg hc]
            exact e _ _ _ _

theorem LimitedGamesFromPGN_loop_nonblank_line (B : Board Pos Mv) (nrOfGames : Int)
    (fuel fuel' : Nat) (l tail : List Char) (games : List (PgnGame Pos Mv))
    (current : List Char) (count totalCount : Nat)
    (hl : '\n' ∉ l) (hnb : TrimSpace (l ++ ['\n']) ≠ []) (hc : count ≠ 2)
    (h : (l ++ '\n' :: tail).length < fuel) (h' : tail.length < fuel') :
    LimitedGamesFromPGN.loop B nrOfGames fuel (l ++ '\n' :: tail) games current count
        totalCount =
      LimitedGamesFromPGN.loop B nrOfGames fuel' tail games (current ++ (l ++ ['\n'])) count
        totalCount := by
  cases fuel with
  | zero => omega
  | succ n =>
    rw [LimitedGamesFromPGN_loop_succ, ReadString_line l tail hl]
    simp only [Bool.false_eq_true, if_false, hnb, hc]
    apply LimitedGamesFromPGN_loop_fuel
    · simp only [List.length_append, List.length_cons] at h; omega
    · exact h'

theorem LimitedGamesFromPGN_loop_blank_first (B : Board Pos Mv) (nrOfGames : Int)
    (fuel fuel' : Nat) (l tail : List Char) (games : List (PgnGame Pos Mv))
    (current : List Char) (count totalCount : Nat)
    (hl : '\n' ∉ l) (hb : TrimSpace (l ++ ['\n']) = []) (hc : count + 1 ≠ 2)
    (h : (l ++ '\n' :: tail).length < fuel) (h' : tail.length < fuel') :
    LimitedGamesFromPGN.loop B nrOfGames fuel (l ++ '\n' :: tail) games current count
        totalCount =
      LimitedGamesFromPGN.loop B nrOfGames fuel' tail games current (count + 1)
        totalCount := by
  cases fuel with
  | zero => omega
  | succ n =>
    rw [LimitedGamesFromPGN_loop_succ, ReadString_line l tail hl]
    simp only [Bool.false_eq_true, if_false, hb, if_true, hc]
    apply LimitedGamesFromPGN_loop_fuel
    · simp only [List.length_append, List.length_cons] at h; omega
    · exact h'

theorem LimitedGamesFromPGN_loop_blank_second (B : Board Pos Mv) (nrOfGames : Int)
    (fuel fuel' : Nat) (l tail : List Char) (games : List (PgnGame Pos Mv))
    (current : List Char) (totalCount : Nat) (game : PgnGame Pos Mv)
    (hl : '\n' ∉ l) (hb : TrimSpace (l ++ ['\n']) = []) (hd : decodePGN B current = .ok game)
    (hlim : ((totalCount + 1 : Nat) : Int) < nrOfGames)
    (h : (l ++ '\n' :: tail).length < fuel) (h' : tail.length < fuel') :
    LimitedGamesFromPGN.loop B nrOfGames fuel (l ++ '\n' :: tail) games current 1
        totalCount =
      LimitedGamesFromPGN.loop B nrOfGames fuel' tail (games ++ [game]) [] 0
        (totalCount + 1) := by
  cases fuel with
  | zero => omega
  | succ n =>
    rw [LimitedGamesFromPGN_loop_succ, ReadString_line l tail hl]
    simp only [Bool.false_eq_true, if_false, hb, if_true, hd]
    rw [if_pos hlim]
    apply LimitedGamesFromPGN_loop_fuel
    · simp only [List.length_append, List.length_cons] at h; omega
    · exact h'

theorem LimitedGamesFromPGN_loop_blank_second_error (B : Board Pos Mv) (nrOfGames : Int)
    (fuel : Nat) (l tail : List Char) (games : List (PgnGame Pos Mv))
    (current err : List Char) (totalCount : Nat)
    (hl : '\n' ∉ l) (hb : TrimSpace (l ++ ['\n']) = [])
    (hd : decodePGN B current = .error err) (h : 0 < fuel) :
    LimitedGamesFromPGN.loop B nrOfGames fuel (l ++ '\n' :: tail) games current 1
        totalCount = some ([], none, 0, some err) := by
  cases fuel with
  | zero => omega
  | succ n =>
    rw [LimitedGamesFromPGN_loop_succ, ReadString_line l tail hl]
    simp only [Bool.false_eq_true, if_false, hb, if_true, hd]

theorem LimitedGamesFromPGN_loop_nonblank_lines (B : Board Pos Mv) (nrOfGames : Int)
    (ls : List (List Char)) (fuel fuel' : Nat) (tail : List Char)
    (games : List (PgnGame Pos Mv)) (current : List Char) (count totalCount : Nat)
    (hl : ∀ l ∈ ls, '\n' ∉ l) (hnb : ∀ l ∈ ls, TrimSpace (l ++ ['\n']) ≠ []) (hc : count ≠ 2)
    (h : (unlines ls ++ tail).length < fuel) (h' : tail.length < fuel') :
    LimitedGamesFromPGN.loop B nrOfGames fuel (unlines ls ++ tail) games current count
        totalCount =
      LimitedGamesFromPGN.loop B nrOfGames fuel' tail games (current ++ unlines ls) count
        totalCount := by
  induction ls generalizing fuel current with
  | nil =>
    simp only [unlines, List.nil_append, List.append_nil] at h ⊢
    exact LimitedGamesFromPGN_loop_fuel B _ _ _ _ _ _ _ _ h h'
  | cons l ls ih =>
    simp only [unlines, List.append_assoc, List.cons_append] at h ⊢
    rw [LimitedGamesFromPGN_loop_nonblank_line B nrOfGames fuel
      ((unlines ls ++ tail).length + 1) l (unlines ls ++ tail) games current count totalCount
      (hl l (List.mem_cons_self _ _)) (hnb l (List.mem_cons_self _ _)) hc h
      (Nat.lt_succ_self _)]
    rw [ih _ _ (fun x hx => hl x (List.mem_cons_of_mem _ hx))
      (fun x hx => hnb x (List.mem_cons_of_mem _ hx)) (Nat.lt_succ_self _)]
    simp [List.append_assoc]

theorem LimitedGamesFromPGN_loop_record (B : Board Pos Mv) (nrOfGames : Int) (r : PgnRecord)
    (game : PgnGame Pos Mv) (fuel fuel' : Nat) (tail : List Char)
    (games : List (PgnGame Pos Mv)) (totalCount : Nat)
    (hwf : r.WellFormed) (hd : decodePGN B r.nonBlank = .ok game)
    (hlim : ((totalCount + 1 : Nat) : Int) < nrOfGames)
    (h : (r.text ++ tail).length < fuel) (h' : tail.length < fuel') :
    LimitedGamesFromPGN.loop B nrOfGames fuel (r.text ++ tail) games [] 0 totalCount =
      LimitedGamesFromPGN.loop B nrOfGames fuel' tail (games ++ [game]) [] 0
        (totalCount + 1) := by
  unfold PgnRecord.text at h ⊢
  simp only [List.append_assoc, List.cons_append, List.nil_append] at h ⊢
  rw [LimitedGamesFromPGN_loop_nonblank_lines B nrOfGames r.tagLines fuel _ _ games [] 0 _
    hwf.tag_lf hwf.tag_nonblank (by decide) h (Nat.lt_succ_self _)]
  rw [LimitedGamesFromPGN_loop_blank_first B nrOfGames _ _ r.blank₁ _ games _ 0 _ hwf.blank₁_lf
    hwf.blank₁_blank (by decide) (Nat.lt_succ_self _) (Nat.lt_succ_self _)]
  rw [LimitedGamesFromPGN_loop_nonblank_lines B nrOfGames r.moveLines _ _ _ games _ 1 _
    hwf.move_lf hwf.move_nonblank (by decide) (Nat.lt_succ_self _) (Nat.lt_succ_self _)]
  rw [LimitedGamesFromPGN_loop_blank_second B nrOfGames _ fuel' r.blank₂ tail games _ _ game
    hwf.blank₂_lf hwf.blank₂_blank (by simpa [PgnRecord.nonBlank] using hd) hlim
    (Nat.lt_succ_self _) h']

theorem LimitedGamesFromPGN_loop_record_error (B : Board Pos Mv) (nrOfGames : Int)
    (r : PgnRecord) (err : List Char) (fuel : Nat) (tail : List Char)
    (games : List (PgnGame Pos Mv)) (totalCount : Nat)
    (hwf : r.WellFormed) (hd : decodePGN B r.nonBlank = .error err)
    (h : (r.text ++ tail).length < fuel) :
    LimitedGamesFromPGN.loop B nrOfGames fuel (r.text ++ tail) games [] 0 totalCount =
      some ([], none, 0, some err) := by
  unfold PgnRecord.text at h ⊢
  simp only [List.append_assoc, List.cons_append, List.nil_append] at h ⊢
  rw [LimitedGamesFromPGN_loop_nonblank_lines B nrOfGames r.tagLines fuel _ _ games [] 0 _
    hwf.tag_lf hwf.tag_nonblank (by decide) h (Nat.lt_succ_self _)]
  rw [LimitedGamesFromPGN_loop_blank_first B nrOfGames _ _ r.blank₁ _ games _ 0 _ hwf.blank₁_lf
    hwf.blank₁_blank (by decide) (Nat.lt_succ_self _) (Nat.lt_succ_self _)]
  rw [LimitedGamesFromPGN_loop_nonblank_lines B nrOfGames r.moveLines _ _ _ games _ 1 _
    hwf.move_lf hwf.move_nonblank (by decide) (Nat.lt_succ_self _) (Nat.lt_succ_self _)]
  exact LimitedGamesFromPGN_loop_blank_second_error B nrOfGames _ r.blank₂ tail games _ err _
    hwf.blank₂_lf hwf.blank₂_blank (by simpa [PgnRecord.nonBlank] using hd) (Nat.succ_pos _)

theorem LimitedGamesFromPGN_loop_records (B : Board Pos Mv) (nrOfGames : Int)
    (rs : List PgnRecord) (gs : List (PgnGame Pos Mv)) (fuel fuel' : Nat) (tail : List Char)
    (games : List (PgnGame Pos Mv)) (totalCount : Nat) (hwf : ∀ r ∈ rs, r.WellFormed)
    (hd : List.Forall₂ (fun r g => decodePGN B r.nonBlank = .ok g) rs gs)
    (hlim : ((totalCount + gs.length : Nat) : Int) < nrOfGames)
    (h : (streamText rs ++ tail).length < fuel) (h' : tail.length < fuel') :
    LimitedGamesFromPGN.loop B nrOfGames fuel (streamText rs ++ tail) games [] 0 totalCount =
      LimitedGamesFromPGN.loop B nrOfGames fuel' tail (games ++ gs) [] 0
        (totalCount + gs.length) := by
  induction hd generalizing fuel games totalCount with
  | nil =>
    simp only [streamText, List.nil_append, List.append_nil, List.length_nil,
      Nat.add_zero] at h ⊢
    exact LimitedGamesFromPGN_loop_fuel B _ _ _ _ _ _ _ _ h h'
  | @cons r g rs gs hrg _ ih =>
    simp only [streamText, List.append_assoc, List.length_cons] at h hlim ⊢
    rw [LimitedGamesFromPGN_loop_record B nrOfGames r g fuel
      ((streamText rs ++ tail).length + 1) (streamText rs ++ tail) games totalCount
      (hwf r (List.mem_cons_self _ _)) hrg (by omega) h (Nat.lt_succ_self _)]
    rw [ih _ _ _ (fun x hx => hwf x (List.mem_cons_of_mem _ hx))
      (by rw [show totalCount + 1 + gs.length = totalCount + (gs.length + 1) by omega]
          exact hlim)
      (Nat.lt_succ_self _)]
    rw [show totalCount + 1 + gs.length = totalCount + (gs.length + 1) by omega]
    simp

/-- C12 (amended). Bounded decoding drops the games parsed before a failure:
when within one `LimitedGamesFromPGN` call the records `rs` decode to the `k-1`
games `gs`, with `k-1 < nrOfGames`, and the `k`-th record fails to decode with
error `err`, the call returns that error together with an empty (`nil`) game
list, a `nil` reader and the count 0, whatever text comes behind. -/
theorem LimitedGamesFromPGN_failure (B : Board Pos Mv) (nrOfGames : Int) (verbose : Bool)
    (rs : List PgnRecord) (gs : List (PgnGame Pos Mv)) (r : PgnRecord) (err tail : List Char)
    (hwf : ∀ x ∈ rs, x.WellFormed)
    (hd : List.Forall₂ (fun x g => decodePGN B x.nonBlank = .ok g) rs gs)
    (hk : (gs.length : Int) < nrOfGames)
    (hr : r.WellFormed) (hfail : decodePGN B r.nonBlank = .error err) :
    LimitedGamesFromPGN B (streamText rs ++ (r.text ++ tail)) nrOfGames verbose =
      some ([], none, 0, some err) := by
  unfold LimitedGamesFromPGN
  rw [LimitedGamesFromPGN_loop_records B nrOfGames rs gs _ ((r.text ++ tail).length + 1) _ [] 0
    hwf hd (by simpa using hk) (Nat.lt_succ_self _) (Nat.lt_succ_self _)]
  exact LimitedGamesFromPGN_loop_record_error B nrOfGames r err _ tail _ _ hr hfail
    (Nat.lt_succ_self _)

end LimitedTheorems

/-- C12 (counterexample). With the bound 5, the two sample records decode and
the third record of the stream fails: the call returns the error with no game,
not with the two games decoded before. -/
theorem LimitedGamesFromPGN_failure_drops_games :
    LimitedGamesFromPGN demoBoard (streamText demoRecords ++ demoBadRecord.text) 5 false =
      some ([], none, 0, some "chess: pgn invalid move error illegal on move 1".toList) ∧
    List.Forall₂ (fun x g => decodePGN demoBoard x.nonBlank = .ok g) demoRecords demoGames ∧
    demoGames.length = 2 :=
  ⟨by rfl, List.Forall₂.cons rfl (List.Forall₂.cons rfl List.Forall₂.nil), rfl⟩

/-- The sample stream, the failing sample record and the sample stream again,
with the bound 3. -/
theorem LimitedGamesFromPGN_failure_witness :
    ((demoGames.length : Nat) : Int) < 3 ∧
    LimitedGamesFromPGN demoBoard
        (streamText demoRecords ++ (demoBadRecord.text ++ streamText demoRecords)) 3 true =
      some ([], none, 0, some "chess: pgn invalid move error illegal on move 1".toList) :=
  ⟨by decide,
    LimitedGamesFromPGN_failure demoBoard 3 true demoRecords demoGames demoBadRecord _
      (streamText demoRecords) demoRecords_wellFormed demoRecords_decode (by decide)
      ⟨by decide, by decide, by decide, by decide, by decide, by decide, by decide, by decide⟩
      (by rfl)⟩

section LimitedBound
variable {Pos Mv : Type}

/-- While the loop of `LimitedGamesFromPGN` runs, the count is the number of
games collected and it is below the bound or still 0; so a return without
error carries as many games as it counts, and at most `nrOfGames` of them when
`nrOfGames` is 1 or more. -/
theorem LimitedGamesFromPGN_loop_bound (B : Board Pos Mv) (nrOfGames : Int) (fuel : Nat)
    (br : List Char) (lg : List (PgnGame Pos Mv)) (current : List Char)
    (count totalCount : Nat) (gs : List (PgnGame Pos Mv)) (rdr : Option (List Char)) (c : Nat)
    (hinv : totalCount = lg.length) (hlt : (totalCount : Int) < nrOfGames ∨ totalCount = 0)
    (h : LimitedGamesFromPGN.loop B nrOfGames fuel br lg current count totalCount =
      some (gs, rdr, c, none)) :
    c = gs.length ∧ (1 ≤ nrOfGames → (gs.length : Int) ≤ nrOfGames) := by
  induction fuel generalizing br lg current count totalCount with
  | zero => simp [LimitedGamesFromPGN.loop] at h
  | succ n ih =>
    rw [LimitedGamesFromPGN_loop_succ] at h
    have hdec : ∀ cur : List Char,
        (match decodePGN B cur with
          | .error err => some ([], none, 0, some err)
          | .ok game =>
            if ((totalCount + 1 : Nat) : Int) < nrOfGames then
              LimitedGamesFromPGN.loop B nrOfGames n (ReadString '\n' br).2.1
                (lg ++ [game]) [] 0 (totalCount + 1)
            else
              some (lg ++ [game], some (ReadString '\n' br).2.1, totalCount + 1, none)) =
          some (gs, rdr, c, none) →
        c = gs.length ∧ (1 ≤ nrOfGames → (gs.length : Int) ≤ nrOfGames) := by
      intro cur h
      cases hd : decodePGN B cur with
      | error err => rw [hd] at h; simp at h
      | ok game =>
        rw [hd] at h
        simp only at h
        by_cases hlim : ((totalCount + 1 : Nat) : Int) < nrOfGames
        · rw [if_pos hlim] at h
          exact ih _ _ _ _ _ (by simp [hinv]) (Or.inl hlim) h
        · rw [if_neg hlim] at h
          simp only [Option.some.injEq, Prod.mk.injEq] at h
          obtain ⟨h1, _, h3, _⟩ := h
          subst h1 h3
          refine ⟨by simp [hinv], fun hn => ?_⟩
          simp only [List.length_append, List.length_singleton, ← hinv]
          rcases hlt with hlt | hlt
          · omega
          · rw [hlt]; simpa using hn
    by_cases heof : (ReadString '\n' br).2.2 = true
    · rw [if_pos heof] at h
      simp only [Option.some.injEq, Prod.mk.injEq] at h
      obtain ⟨h1, _, h3, _⟩ := h
      subst h1 h3
      refine ⟨hinv, fun hn => ?_⟩
      rw [← hinv]
      rcases hlt with hlt | hlt
      · omega
      · rw [hlt]; omega
    · rw [if_neg heof] at h
      by_cases hb : TrimSpace (ReadString '\n' br).1 = []
      · rw [if_pos hb] at h
        by_cases hc : count + 1 = 2
        · rw [if_pos hc] at h
          exact hdec _ h
        · rw [if_neg hc] at h
          exact ih _ _ _ _ _ hinv hlt h
      · rw [if_neg hb] at h
        by_cases hc : count = 2
        · rw [if_pos hc] at h
          exact hdec _ h
        · rw [if_neg hc] at h
          exact ih _ _ _ _ _ hinv hlt h

/-- For a bound of 1 or more, a `LimitedGamesFromPGN` call that returns no error
returns at most `nrOfGames` games; for every bound the count it returns is the
length of the game list. -/
theorem LimitedGamesFromPGN_bound (B : Board Pos Mv) (br : List Char) (nrOfGames : Int)
    (verbose : Bool) (gs : List (PgnGame Pos Mv)) (rdr : Option (List Char)) (c : Nat)
    (h : LimitedGamesFromPGN B br nrOfGames verbose = some (gs, rdr, c, none)) :
    c = gs.length ∧ (1 ≤ nrOfGames → (gs.length : Int) ≤ nrOfGames) :=
  LimitedGamesFromPGN_loop_bound B nrOfGames _ br [] [] 0 0 gs rdr c rfl (Or.inr rfl) h

end LimitedBound

/-- C14 (failing input). With the bound 0 on the stream of the two sample
records, the call returns no error and one game, the first, with the count 1
and the reader at the second record. -/
theorem LimitedGamesFromPGN_bound_zero :
    LimitedGamesFromPGN demoBoard (streamText demoRecords) 0 false =
      some (demoGames.take 1, some (streamText (demoRecords.drop 1)), 1, none) ∧
    (demoGames.take 1).length = 1 := by
  constructor
  · rfl
  · rfl

/-! ## Theorems: the replay of decodePGN -/

section ReplayTheorems
variable {Pos Mv : Type}

theorem decodePGN_loop_cons (B : Board Pos Mv) (notn : Notation Pos Mv) (alg : List Char)
    (rest : List (List Char)) (g : PgnGame Pos Mv) :
    decodePGN.loop B notn (alg :: rest) g =
      match decodePGN.step B notn g alg with
      | .error err => .error err
      | .ok g' => decodePGN.loop B notn rest g' := by
  rw [decodePGN.loop, decodePGN.step]
  cases notn.Decode (B.Position g) alg with
  | error err => rfl
  | ok m =>
    simp only
    rcases hm : B.Move g m with ⟨_ | err, g'⟩ <;> rfl

/-- The loop of `decodePGN` on a list of move strings: the strings before the
`k`-th are replayed, then the `k`-th takes one round with the same notation on
the game reached, then the rest follows. -/
theorem decodePGN_loop_append (B : Board Pos Mv) (notn : Notation Pos Mv)
    (pre : List (List Char)) (tok : List Char) (post : List (List Char))
    (g g' : PgnGame Pos Mv) (h : decodePGN.loop B notn pre g = .ok g') :
    decodePGN.loop B notn (pre ++ tok :: post) g =
      match decodePGN.step B notn g' tok with
      | .error err => .error err
      | .ok g'' => decodePGN.loop B notn post g'' := by
  induction pre generalizing g with
  | nil =>
    rw [decodePGN.loop] at h
    cases h
    exact decodePGN_loop_cons B notn tok post _
  | cons a pre ih =>
    rw [decodePGN_loop_cons] at h
    rw [List.cons_append, decodePGN_loop_cons]
    cases hs : decodePGN.step B notn g a with
    | error err => rw [hs] at h; cases h
    | ok g₁ =>
      rw [hs] at h
      exact ih g₁ h

theorem decodePGN_eq_long (B : Board Pos Mv) (pgn first : List Char) (rest : List (List Char))
    (m : Mv) (h : (moveList pgn).1 = first :: rest)
    (hl : B.LongAlgebraicNotation.Decode (B.Position (decodePGN.start B pgn)) first = .ok m) :
    decodePGN B pgn =
      decodePGN.finish (moveList pgn).2
        (decodePGN.loop B B.LongAlgebraicNotation (first :: rest) (decodePGN.start B pgn)) := by
  unfold decodePGN
  simp only [h]
  unfold decodePGN.start at hl
  rw [hl]
  simp only [decodePGN.start]
  cases decodePGN.loop B B.LongAlgebraicNotation (first :: rest)
    { B.NewGame (getTagPairs pgn) with ignoreAutomaticDraws := true } <;> rfl

theorem decodePGN_eq_algebraic (B : Board Pos Mv) (pgn first : List Char)
    (rest : List (List Char)) (err : List Char) (h : (moveList pgn).1 = first :: rest)
    (hl : B.LongAlgebraicNotation.Decode (B.Position (decodePGN.start B pgn)) first =
      .error err) :
    decodePGN B pgn =
      decodePGN.finish (moveList pgn).2
        (decodePGN.loop B B.AlgebraicNotation (first :: rest) (decodePGN.start B pgn)) := by
  unfold decodePGN
  simp only [h]
  unfold decodePGN.start at hl
  rw [hl]
  simp only [decodePGN.start]
  cases decodePGN.loop B B.AlgebraicNotation (first :: rest)
    { B.NewGame (getTagPairs pgn) with ignoreAutomaticDraws := true } <;> rfl

theorem decodePGN_eq_nil (B : Board Pos Mv) (pgn : List Char) (h : (moveList pgn).1 = []) :
    decodePGN B pgn = .ok { decodePGN.start B pgn with outcome := (moveList pgn).2 } := by
  unfold decodePGN
  simp only [h, decodePGN.loop, decodePGN.start]

end ReplayTheorems

section NotationTheorems
variable {Pos Mv : Type}

theorem decodePGN_eq_pick (B : Board Pos Mv) (pgn : List Char) :
    decodePGN B pgn =
      decodePGN.finish (moveList pgn).2
        (decodePGN.loop B (decodePGN.pick B pgn) (moveList pgn).1 (decodePGN.start B pgn)) := by
  cases h : (moveList pgn).1 with
  | nil =>
    rw [decodePGN_eq_nil B pgn h]
    rfl
  | cons first rest =>
    cases hl : B.LongAlgebraicNotation.Decode (B.Position (decodePGN.start B pgn)) first with
    | ok m =>
      rw [decodePGN_eq_long B pgn first rest m h hl]
      simp only [decodePGN.pick, h, hl]
    | error err =>
      rw [decodePGN_eq_algebraic B pgn first rest err h hl]
      simp only [decodePGN.pick, h, hl]

/-- C15 (amended). Positional error on first failure: when the move strings
before the `k`-th are replayed and lead to the game `g'`, and the `k`-th fails,
`decodePGN` returns an error and no game, whatever strings follow. If the
`k`-th string does not decode, the number in the message is the `moveCount` of
the position of `g'`, the position reached before the failing string; if it
decodes and `Game.Move` refuses the move, the number is the `moveCount` of the
position of the game as `Game.Move` left it. The number is that full-move
counter, not the ply index `k`. -/
theorem decodePGN_positional_error (B : Board Pos Mv) (pgn : List Char)
    (pre : List (List Char)) (tok : List Char) (post : List (List Char)) (g' : PgnGame Pos Mv)
    (htoks : (moveList pgn).1 = pre ++ tok :: post)
    (hpre : decodePGN.loop B (decodePGN.pick B pgn) pre (decodePGN.start B pgn) = .ok g') :
    (∀ err, (decodePGN.pick B pgn).Decode (B.Position g') tok = .error err →
      decodePGN B pgn =
        .error ("chess: pgn decode error ".toList ++ err ++ " on move ".toList ++
          formatInt (B.moveCount (B.Position g')))) ∧
    (∀ m err g'', (decodePGN.pick B pgn).Decode (B.Position g') tok = .ok m →
      B.Move g' m = (some err, g'') →
      decodePGN B pgn =
        .error ("chess: pgn invalid move error ".toList ++ err ++ " on move ".toList ++
          formatInt (B.moveCount (B.Position g'')))) := by
  have hloop := decodePGN_loop_append B (decodePGN.pick B pgn) pre tok post _ g' hpre
  constructor
  · intro err hdec
    rw [decodePGN_eq_pick, htoks, hloop, decodePGN.step, hdec]
    rfl
  · intro m err g'' hdec hmove
    rw [decodePGN_eq_pick, htoks, hloop, decodePGN.step, hdec]
    simp only [hmove]
    rfl

/-- C16. Notation is chosen once from the first token. For a non-empty list of
move strings `decodePGN` replays the whole list with the long-algebraic
notation when the first string decodes with it on the starting game, and the
whole list with the algebraic notation when it does not. The choice is not
revisited: with the notation `N` of the replay, the `k`-th string takes one
round of the loop with `N.Decode` on the game the strings before it led to.
For an empty list the returned game has no moves (`NewGame` builds a game
without moves, as in `game.go`). -/
theorem decodePGN_notation_once (B : Board Pos Mv) (pgn : List Char)
    (hnew : ∀ tagPairs, (B.NewGame tagPairs).moves = []) :
    ((moveList pgn).1 = [] → ∃ g, decodePGN B pgn = .ok g ∧ g.moves = []) ∧
    (∀ first rest, (moveList pgn).1 = first :: rest →
      (∀ m, B.LongAlgebraicNotation.Decode (B.Position (decodePGN.start B pgn)) first = .ok m →
        decodePGN B pgn =
          decodePGN.finish (moveList pgn).2
            (decodePGN.loop B B.LongAlgebraicNotation (first :: rest)
              (decodePGN.start B pgn))) ∧
      (∀ err,
        B.LongAlgebraicNotation.Decode (B.Position (decodePGN.start B pgn)) first =
          .error err →
        decodePGN B pgn =
          decodePGN.finish (moveList pgn).2
            (decodePGN.loop B B.AlgebraicNotation (first :: rest) (decodePGN.start B pgn)))) ∧
    (∀ (N : Notation Pos Mv) pre tok post (g g' : PgnGame Pos Mv),
      decodePGN.loop B N pre g = .ok g' →
      decodePGN.loop B N (pre ++ tok :: post) g =
        match decodePGN.step B N g' tok with
        | .error err => .error err
        | .ok g'' => decodePGN.loop B N post g'') := by
  refine ⟨?_, ?_, ?_⟩
  · intro h
    refine ⟨_, decodePGN_eq_nil B pgn h, ?_⟩
    exact hnew _
  · intro first rest h
    exact ⟨fun m hl => decodePGN_eq_long B pgn first rest m h hl,
      fun err hl => decodePGN_eq_algebraic B pgn first rest err h hl⟩
  · intro N pre tok post g g' h
    exact decodePGN_loop_append B N pre tok post g g' h

end NotationTheorems

section NewGameTheorems
variable {TagMap Square PieceType GameState : Type}

/-- `NewGame(TagPairs(tagPairs))` of `game.go` is a game without moves, with the
given tag pairs and the outcome `NoOutcome`. -/
theorem NewGame_TagPairs (noTags tagPairs : TagMap) (startState : GameState) :
    (NewGame noTags startState
      [(TagPairs tagPairs : Game TagMap Square PieceType GameState → _)]).moves = [] ∧
    (NewGame noTags startState
      [(TagPairs tagPairs : Game TagMap Square PieceType GameState → _)]).tagPairs = tagPairs ∧
    (NewGame noTags startState
      [(TagPairs tagPairs : Game TagMap Square PieceType GameState → _)]).outcome =
        NoOutcome :=
  ⟨rfl, rfl, rfl⟩

end NewGameTheorems

/-- C15 (counterexample). On the sample board, whose `moveCount` is the
full-move counter, the third move string of `1. e4 e5 2. x3` is the first that
fails; the message says move 2, not 3. -/
theorem decodePGN_error_names_move_count :
    (moveList "1. e4 e5 2. x3".toList).1 = ["e4".toList, "e5".toList, "x3".toList] ∧
    decodePGN demoBoard "1. e4 e5 2. x3".toList =
      .error "chess: pgn decode error bad on move 2".toList :=
  ⟨by decide, by rfl⟩

/-- The text `1. e4 e5 2. x3` on the sample board: two strings replayed, the
third does not decode. -/
theorem decodePGN_positional_error_witness :
    (moveList "1. e4 e5 2. x3".toList).1 = ["e4".toList, "e5".toList] ++ "x3".toList :: [] ∧
    decodePGN demoBoard "1. e4 e5 2. x3".toList =
      .error ("chess: pgn decode error ".toList ++ "bad".toList ++ " on move ".toList ++
        formatInt 2) :=
  have htoks : (moveList "1. e4 e5 2. x3".toList).1 =
      ["e4".toList, "e5".toList] ++ "x3".toList :: [] := by decide
  have hpre : decodePGN.loop demoBoard (decodePGN.pick demoBoard "1. e4 e5 2. x3".toList)
      ["e4".toList, "e5".toList] (decodePGN.start demoBoard "1. e4 e5 2. x3".toList) =
      .ok { tagPairs := [], moves := ["e4".toList, "e5".toList], positions := [0, 1, 2],
            notn := demoAlgebraic, outcome := NoOutcome, ignoreAutomaticDraws := true } := by
    rfl
  ⟨htoks,
    (decodePGN_positional_error demoBoard _ _ _ _ _ htoks hpre).1 "bad".toList (by rfl)⟩

/-- The sample board builds games without moves; the empty text decodes to a
game without moves, and `e2e4 e7e5` is replayed with the long notation. -/
theorem decodePGN_notation_once_witness :
    (∀ tagPairs, (demoBoard.NewGame tagPairs).moves = []) ∧
    (∃ g, decodePGN demoBoard [] = .ok g ∧ g.moves = []) ∧
    decodePGN demoBoard "e2e4 e7e5".toList =
      decodePGN.finish (moveList "e2e4 e7e5".toList).2
        (decodePGN.loop demoBoard demoBoard.LongAlgebraicNotation
          ["e2e4".toList, "e7e5".toList] (decodePGN.start demoBoard "e2e4 e7e5".toList)) :=
  have h := decodePGN_notation_once demoBoard
  ⟨fun _ => rfl, (h [] (fun _ => rfl)).1 (by decide),
    ((h "e2e4 e7e5".toList (fun _ => rfl)).2.1 "e2e4".toList ["e7e5".toList] (by decide)).1
      "e2e4".toList (by rfl)⟩

end Chess
